import Mathlib

/-!
# Verification of the sentiment aggregation pipeline
Shallow embedding of `src/PythonApi/sentiment_service.py`
(`analyze_sentiment_with_details`, `process_timestamps`,
`get_sentiment_over_time`, `analyze_sentiment`).

Modelling conventions:
* Python floats are modelled exactly by `ℚ`; Python's built-in `round`
  (round half to even) is modelled by `pyRound`.
* Python ints are `ℤ` (arbitrary precision in Python as well).
* JSON values (`json.loads` results) are modelled by the `JValue` AST,
  with integers for JSON numbers (the fragment exercised by the service;
  the prompt schema asks only for integer counts).
* Dynamic (type-error) exceptions raised while processing a parsed result
  are modelled with `Except String`; a `.error` models an uncaught Python
  exception propagating out of the function.
-/

namespace SentimentService

/-- Python's built-in `round` on an exact rational: round half to even. -/
def pyRound (q : ℚ) : ℤ :=
  let f : ℤ := ⌊q⌋
  let r : ℚ := q - f
  if r < 1/2 then f
  else if 1/2 < r then f + 1
  else if f % 2 = 0 then f else f + 1

/-- Sum of an integer triple. -/
def sum3 (t : ℤ × ℤ × ℤ) : ℤ := t.1 + t.2.1 + t.2.2

/-- The `if/elif` largest-category adjustment of lines 265-272 of
`sentiment_service.py`: add `100 - (p+n+g)` to the first category, in the
order positive, neutral, negative, that is `≥` both others. -/
def adjustLargestChain (p n g : ℤ) : ℤ × ℤ × ℤ :=
  if p ≥ n ∧ p ≥ g then (p + (100 - (p + n + g)), n, g)
  else if n ≥ p ∧ n ≥ g then (p, n + (100 - (p + n + g)), g)
  else (p, n, g + (100 - (p + n + g)))

/-- The largest-category adjustment of lines 475-478 (and 551-554):
`max(d.items(), key=value)` over a dict with insertion order positive,
neutral, negative returns the **first** maximal entry, which then
receives `100 - (p+n+g)`. -/
def adjustLargestMax (p n g : ℤ) : ℤ × ℤ × ℤ :=
  if p ≥ n ∧ p ≥ g then (p + (100 - (p + n + g)), n, g)
  else if n ≥ g then (p, n + (100 - (p + n + g)), g)
  else (p, n, g + (100 - (p + n + g)))

/-!
## §4.4 Percentage normalizer, overall variant
`analyze_sentiment_with_details`, lines 256-274.
-/

/-- Embedding of lines 257-274 of `sentiment_service.py`: overall sentiment
percentages from raw counts (`ℤ`, since they come from JSON integers). -/
def overallPercentages (pos neu neg : ℤ) : ℤ × ℤ × ℤ :=
  if 0 < pos + neu + neg then
    let total := pos + neu + neg
    let p := pyRound ((pos : ℚ) / (total : ℚ) * 100)
    let n := pyRound ((neu : ℚ) / (total : ℚ) * 100)
    let g := pyRound ((neg : ℚ) / (total : ℚ) * 100)
    if p + n + g ≠ 100 then adjustLargestChain p n g else (p, n, g)
  else (0, 0, 0)

/-!
## §4.4 Percentage normalizer, per-period variant
`get_sentiment_over_time`, lines 466-478: percentages computed with
`total_count = len(period_posts)`.
-/

/-- Embedding of lines 466-478 of `sentiment_service.py`. `total` is
`total_count = len(period_posts)`; the counts are per-period tallies. -/
def periodPercentages (pos neu neg total : ℕ) : ℤ × ℤ × ℤ :=
  let p := if 0 < total then pyRound ((pos : ℚ) / (total : ℚ) * 100) else 0
  let n := if 0 < total then pyRound ((neu : ℚ) / (total : ℚ) * 100) else 0
  let g := if 0 < total then pyRound ((neg : ℚ) / (total : ℚ) * 100) else 0
  if p + n + g ≠ 100 ∧ 0 < p + n + g then adjustLargestMax p n g else (p, n, g)

/-- Modelled from the spec (§4.4): rounded ratios ×100, with the drift
`100 - (p+n+g)` added to the category currently holding the largest
percentage, ties broken by the fixed priority positive, neutral, negative;
all zeros when the total is zero. -/
def spec_normalize (pos neu neg : ℤ) : ℤ × ℤ × ℤ :=
  let total := pos + neu + neg
  if total = 0 then (0, 0, 0)
  else
    let p := pyRound ((pos : ℚ) / (total : ℚ) * 100)
    let n := pyRound ((neu : ℚ) / (total : ℚ) * 100)
    let g := pyRound ((neg : ℚ) / (total : ℚ) * 100)
    adjustLargestChain p n g

/-!
## §4.3 Count reconciler
`analyze_sentiment_with_details`, lines 181-195.
-/

/-- Embedding of lines 181-195 of `sentiment_service.py`: reconcile the
reported batch counts against the true batch size. On mismatch with a
positive reported sum, positive and negative are rescaled by
`size/total` (Python `round`), neutral absorbs the remainder; on a
non-positive reported sum only `neutral` is overwritten with the batch
size (positive and negative keep their reported values). -/
def reconcileCounts (p n g : ℤ) (size : ℕ) : ℤ × ℤ × ℤ :=
  if p + n + g = (size : ℤ) then (p, n, g)
  else if 0 < p + n + g then
    -- batch_positive = round(batch_positive * scale); likewise negative;
    -- batch_neutral = len(batch) - batch_positive - batch_negative
    (pyRound ((p : ℚ) * ((size : ℚ) / ((p + n + g : ℤ) : ℚ))),
     (size : ℤ) - pyRound ((p : ℚ) * ((size : ℚ) / ((p + n + g : ℤ) : ℚ)))
                - pyRound ((g : ℚ) * ((size : ℚ) / ((p + n + g : ℤ) : ℚ))),
     pyRound ((g : ℚ) * ((size : ℚ) / ((p + n + g : ℤ) : ℚ))))
  else (p, (size : ℤ), g)

/-! ### Basic facts about `pyRound` and the adjustment helpers -/

theorem pyRound_ge_of_ge {q : ℚ} {b : ℤ} (h : (b : ℚ) ≤ q) : b ≤ pyRound q := by
  unfold pyRound
  have hfb : b ≤ ⌊q⌋ := Int.le_floor.mpr h
  simp only
  split
  · omega
  · split
    · omega
    · split <;> omega

theorem pyRound_nonneg {q : ℚ} (hq : 0 ≤ q) : 0 ≤ pyRound q :=
  pyRound_ge_of_ge (by exact_mod_cast hq)

theorem pyRound_le_of_le {q : ℚ} {b : ℤ} (h : q ≤ (b : ℚ)) : pyRound q ≤ b := by
  unfold pyRound
  have hfb : ⌊q⌋ ≤ b := by
    have := Int.floor_mono h
    simpa using this
  have hfq : (⌊q⌋ : ℚ) ≤ q := Int.floor_le q
  simp only
  split
  · exact hfb
  · rename_i h1
    push_neg at h1
    have h2 : (⌊q⌋ : ℚ) + 1/2 ≤ q := by linarith
    have h4 : (⌊q⌋ : ℚ) < (b : ℚ) := by linarith
    have h5 : ⌊q⌋ < b := by exact_mod_cast h4
    split
    · omega
    · split <;> omega

theorem sum3_adjustLargestChain (p n g : ℤ) :
    sum3 (adjustLargestChain p n g) = 100 := by
  unfold adjustLargestChain sum3
  split
  · simp only
    ring
  · split
    · simp only
      ring
    · simp only
      ring

theorem adjustLargestMax_eq_chain (p n g : ℤ) :
    adjustLargestMax p n g = adjustLargestChain p n g := by
  unfold adjustLargestMax adjustLargestChain
  by_cases h1 : p ≥ n ∧ p ≥ g
  · rw [if_pos h1, if_pos h1]
  · rw [if_neg h1, if_neg h1]
    by_cases h2 : n ≥ g
    · rw [if_pos h2, if_pos ?_]
      constructor
      · by_contra hnp
        push_neg at hnp
        exact h1 ⟨by omega, by omega⟩
      · exact h2
    · rw [if_neg h2, if_neg ?_]
      intro h3
      exact h2 h3.2

theorem adjustLargestChain_of_sum_100 {p n g : ℤ} (h : p + n + g = 100) :
    adjustLargestChain p n g = (p, n, g) := by
  unfold adjustLargestChain
  rw [h]
  split
  · norm_num
  · split
    · norm_num
    · norm_num

/-!
## C1: the percentage normalizer
-/

/-- Helper: with natural-number counts summing to a positive total, the
three rounded percentages have positive sum (the largest count rounds to
at least 33). -/
theorem rounded_sum_pos {pos neu neg total : ℕ} (htot : 0 < total)
    (hsum : pos + neu + neg = total) :
    0 < pyRound ((pos : ℚ) / (total : ℚ) * 100)
        + pyRound ((neu : ℚ) / (total : ℚ) * 100)
        + pyRound ((neg : ℚ) / (total : ℚ) * 100) := by
  have htq : (0 : ℚ) < (total : ℚ) := by exact_mod_cast htot
  have hmax : 3 * pos ≥ total ∨ 3 * neu ≥ total ∨ 3 * neg ≥ total := by omega
  have hnn : ∀ c : ℕ, 0 ≤ pyRound ((c : ℚ) / (total : ℚ) * 100) := by
    intro c
    apply pyRound_nonneg
    positivity
  have key : ∀ c : ℕ, 3 * c ≥ total → 1 ≤ pyRound ((c : ℚ) / (total : ℚ) * 100) := by
    intro c hc
    apply pyRound_ge_of_ge
    rw [div_mul_eq_mul_div, le_div_iff₀ htq]
    have : (total : ℚ) ≤ 3 * (c : ℚ) := by exact_mod_cast hc
    push_cast
    linarith
  rcases hmax with h | h | h
  · have := key pos h; have := hnn neu; have := hnn neg; omega
  · have := key neu h; have := hnn pos; have := hnn neg; omega
  · have := key neg h; have := hnn pos; have := hnn neu; omega

/-- **C1.** The percentage normalizer: both code instances (the overall
aggregate, lines 256-274, and the per-time-period computation, lines
466-478) return integer percentage triples summing to exactly 100
whenever the input total is nonzero and all zeros when it is zero, and
both add the rounding drift to the category holding the largest rounded
percentage with ties broken positive → neutral → negative — i.e. both
refine the normalizer the spec describes (`spec_normalize`). -/
theorem percentage_normalizer_correct (pos neu neg : ℕ) :
    (0 < pos + neu + neg →
      sum3 (overallPercentages pos neu neg) = 100 ∧
      sum3 (periodPercentages pos neu neg (pos + neu + neg)) = 100 ∧
      overallPercentages pos neu neg = spec_normalize pos neu neg ∧
      periodPercentages pos neu neg (pos + neu + neg) = spec_normalize pos neu neg) ∧
    (pos + neu + neg = 0 →
      overallPercentages pos neu neg = (0, 0, 0) ∧
      periodPercentages pos neu neg (pos + neu + neg) = (0, 0, 0)) := by
  constructor
  · intro htot
    have htotZ : (0 : ℤ) < (pos : ℤ) + (neu : ℤ) + (neg : ℤ) := by exact_mod_cast htot
    have htotne : ((pos : ℤ) + (neu : ℤ) + (neg : ℤ)) ≠ 0 := by omega
    have e1 : ((pos : ℤ) : ℚ) / (((pos : ℤ) + (neu : ℤ) + (neg : ℤ) : ℤ) : ℚ) * 100
        = (pos : ℚ) / ((pos + neu + neg : ℕ) : ℚ) * 100 := by push_cast; ring
    have e2 : ((neu : ℤ) : ℚ) / (((pos : ℤ) + (neu : ℤ) + (neg : ℤ) : ℤ) : ℚ) * 100
        = (neu : ℚ) / ((pos + neu + neg : ℕ) : ℚ) * 100 := by push_cast; ring
    have e3 : ((neg : ℤ) : ℚ) / (((pos : ℤ) + (neu : ℤ) + (neg : ℤ) : ℤ) : ℚ) * 100
        = (neg : ℚ) / ((pos + neu + neg : ℕ) : ℚ) * 100 := by push_cast; ring
    set p := pyRound ((pos : ℚ) / ((pos + neu + neg : ℕ) : ℚ) * 100) with hp
    set n := pyRound ((neu : ℚ) / ((pos + neu + neg : ℕ) : ℚ) * 100) with hn
    set g := pyRound ((neg : ℚ) / ((pos + neu + neg : ℕ) : ℚ) * 100) with hg
    have htsum : 0 < p + n + g := by
      rw [hp, hn, hg]
      exact rounded_sum_pos htot rfl
    have hov : overallPercentages pos neu neg =
        (if p + n + g ≠ 100 then adjustLargestChain p n g else (p, n, g)) := by
      unfold overallPercentages
      rw [if_pos htotZ]
      simp only
      rw [e1, e2, e3]
    have hsp : spec_normalize pos neu neg = adjustLargestChain p n g := by
      unfold spec_normalize
      rw [if_neg htotne]
      simp only
      rw [e1, e2, e3]
    have hpe : periodPercentages pos neu neg (pos + neu + neg) =
        (if p + n + g ≠ 100 ∧ 0 < p + n + g then adjustLargestMax p n g
         else (p, n, g)) := by
      unfold periodPercentages
      rw [if_pos htot, if_pos htot, if_pos htot]
    refine ⟨?_, ?_, ?_, ?_⟩
    · rw [hov]
      by_cases h100 : p + n + g = 100
      · rw [if_neg (by simpa using h100)]
        simpa [sum3] using h100
      · rw [if_pos h100]
        exact sum3_adjustLargestChain p n g
    · rw [hpe]
      by_cases h100 : p + n + g = 100
      · rw [if_neg (by simp [h100])]
        simpa [sum3] using h100
      · rw [if_pos ⟨h100, htsum⟩, adjustLargestMax_eq_chain]
        exact sum3_adjustLargestChain p n g
    · rw [hov, hsp]
      by_cases h100 : p + n + g = 100
      · rw [if_neg (by simpa using h100), adjustLargestChain_of_sum_100 h100]
      · rw [if_pos h100]
    · rw [hpe, hsp]
      by_cases h100 : p + n + g = 100
      · rw [if_neg (by simp [h100]), adjustLargestChain_of_sum_100 h100]
      · rw [if_pos ⟨h100, htsum⟩, adjustLargestMax_eq_chain]
  · intro h0
    have h1 : pos = 0 := by omega
    have h2 : neu = 0 := by omega
    have h3 : neg = 0 := by omega
    subst h1; subst h2; subst h3
    constructor
    · unfold overallPercentages
      norm_num
    · unfold periodPercentages
      norm_num

/-- Witness for C1 at concrete counts (1, 2, 5). -/
theorem percentage_normalizer_correct_witness :
    sum3 (overallPercentages 1 2 5) = 100 ∧
    overallPercentages 1 2 5 = spec_normalize 1 2 5 := by
  have h := percentage_normalizer_correct 1 2 5
  have h8 : 0 < 1 + 2 + 5 := by norm_num
  exact ⟨(h.1 h8).1, (h.1 h8).2.2.1⟩

/-!
## C2: the count reconciler

The reconciliation invariant fails for a reported triple containing a
negative count (possible, since the counts are read from oracle-supplied
JSON integers with no sign check): on a non-positive reported sum the
code only overwrites `neutral` with the batch size, keeping the reported
positive and negative values, so the reconciled sum can differ from the
batch size. With nonnegative reported counts the claim holds.
-/

/-- **C2, counterexample.** Reported counts `(0, 0, -3)` for a 5-post
batch: the reported sum `-3` differs from 5, the code takes the
`total_sentiment <= 0` branch and returns `(0, 5, -3)`, whose sum is 2,
not the batch size 5. -/
theorem reconcile_counterexample :
    reconcileCounts 0 0 (-3) 5 = (0, 5, -3) ∧
    sum3 (reconcileCounts 0 0 (-3) 5) ≠ 5 := by
  constructor
  · rfl
  · decide

/-- **C2, amended.** For every batch whose reported counts are
nonnegative, the reconciled triple sums to the batch size: when the
reported sum is positive and differs from the batch size, positive and
negative are rescaled by `batch_size/reported_sum` (Python rounding) and
neutral is the remainder; when the reported sum is zero the whole batch
is assigned to neutral. -/
theorem reconcile_sums_to_batch_size (p n g : ℕ) (size : ℕ) :
    sum3 (reconcileCounts p n g size) = size ∧
    (p + n + g = 0 → reconcileCounts p n g size = (0, (size : ℤ), 0)) ∧
    (0 < p + n + g → (p + n + g : ℤ) ≠ (size : ℤ) →
      reconcileCounts p n g size =
        (pyRound ((p : ℚ) * ((size : ℚ) / ((p + n + g : ℕ) : ℚ))),
         (size : ℤ) - pyRound ((p : ℚ) * ((size : ℚ) / ((p + n + g : ℕ) : ℚ)))
                    - pyRound ((g : ℚ) * ((size : ℚ) / ((p + n + g : ℕ) : ℚ))),
         pyRound ((g : ℚ) * ((size : ℚ) / ((p + n + g : ℕ) : ℚ))))) := by
  have e : ∀ c : ℕ, ((c : ℤ) : ℚ) * ((size : ℚ) / (((p : ℤ) + (n : ℤ) + (g : ℤ) : ℤ) : ℚ))
      = (c : ℚ) * ((size : ℚ) / ((p + n + g : ℕ) : ℚ)) := by
    intro c
    push_cast
    ring
  refine ⟨?_, ?_, ?_⟩
  · unfold reconcileCounts sum3
    split
    · simp only
      omega
    · split
      · simp only
        ring
      · rename_i hne hle
        push_neg at hle
        have hp : (0 : ℤ) ≤ (p : ℤ) := Int.natCast_nonneg p
        have hn : (0 : ℤ) ≤ (n : ℤ) := Int.natCast_nonneg n
        have hg : (0 : ℤ) ≤ (g : ℤ) := Int.natCast_nonneg g
        simp only
        omega
  · intro h0
    have h1 : p = 0 := by omega
    have h2 : n = 0 := by omega
    have h3 : g = 0 := by omega
    subst h1; subst h2; subst h3
    unfold reconcileCounts
    rcases Nat.eq_zero_or_pos size with hs | hs
    · subst hs
      norm_num
    · have hne : ((0 : ℕ) : ℤ) + ((0 : ℕ) : ℤ) + ((0 : ℕ) : ℤ) ≠ (size : ℤ) := by
        have : (0 : ℤ) < (size : ℤ) := by exact_mod_cast hs
        norm_num
        omega
      rw [if_neg hne, if_neg (by norm_num)]
      norm_num
  · intro hpos hne
    unfold reconcileCounts
    rw [if_neg (by omega)]
    rw [if_pos (by exact_mod_cast hpos)]
    rw [e p, e g]

/-- Witness for the amended C2 at the spec's own scenario: reported
`(3,3,3)` for a batch of 8 rescales to `(3, 2, 3)`. -/
theorem reconcile_sums_to_batch_size_witness :
    sum3 (reconcileCounts 3 3 3 8) = 8 ∧ reconcileCounts 3 3 3 8 = (3, 2, 3) := by
  constructor
  · have h := (reconcile_sums_to_batch_size 3 3 3 8).1
    exact_mod_cast h
  · unfold reconcileCounts pyRound
    norm_num

/-!
## JSON values and `json.loads`

`result_data` in `analyze_sentiment_with_details` is the result of
`json.loads`; we model JSON values by `JValue` and `json.loads` by
`jsonParse`, a fuel-driven machine mirroring CPython's `_json` scanner
(the accelerated scanner the `json` module installs): whitespace is
exactly space/tab/LF/CR, numbers follow
`-?(0|[1-9][0-9]*)(.[0-9]+)?([eE][+-]?[0-9]+)?` with ASCII digits and
the scanner's backtracking on a dangling exponent, the non-standard
constants `NaN`, `Infinity` and `-Infinity` are accepted, strings are
strict (raw control characters below U+0020 rejected; escapes limited
to the eight single-character ones and `\uXXXX` with exactly four hex
digits; surrogate pairs joined). Python ints are `ℤ`; floats are exact
rationals (`fnum`; the binary64 rounding of `float` is not modelled —
no claim below depends on a float's numeric value), with the
non-finite constants kept symbolic (`nan`, `inf`). A lone surrogate
code unit — legal in a Python `str`, not representable as a Lean
`Char` — is represented by U+FFFD; nothing downstream distinguishes
surrogate values. Resource exhaustion (the interpreter's recursion
limit on deeply nested documents, memory) is outside the model, as
everywhere in this development.
-/

inductive JValue where
  | null : JValue
  | bool (b : Bool) : JValue
  | num (n : ℤ) : JValue
  | fnum (q : ℚ) : JValue
  | nan : JValue
  | inf (neg : Bool) : JValue
  | str (s : String) : JValue
  | arr (elems : List JValue) : JValue
  | obj (fields : List (String × JValue)) : JValue

/-- Python truthiness of a JSON-derived value (`if result_data:`).
`float('nan')` and the infinities are truthy; `0.0` and `-0.0` are
falsy (and equal as rationals). -/
def isTruthy : JValue → Bool
  | .null => false
  | .bool b => b
  | .num n => n ≠ 0
  | .fnum q => q ≠ 0
  | .nan => true
  | .inf _ => true
  | .str s => s ≠ ""
  | .arr xs => !xs.isEmpty
  | .obj fs => !fs.isEmpty

def JValue.isObj : JValue → Bool
  | .obj _ => true
  | _ => false

/-- Dict lookup; on duplicate keys Python keeps the last value. -/
def jlookup (fields : List (String × JValue)) (k : String) : Option JValue :=
  match fields with
  | [] => none
  | (k2, v) :: rest =>
    match jlookup rest k with
    | some r => some r
    | none => if k2 = k then some v else none

/-- Python `d.get(k, dflt)` on a dict value. Only applied after an
`isObj` check (a `.get` on a non-dict raises and is modelled as an
`Except.error` at the call sites). -/
def jget (v : JValue) (k : String) (dflt : JValue) : JValue :=
  match v with
  | .obj fs => (jlookup fs k).getD dflt
  | _ => dflt

/- Characters written via code points to keep string/char literals plain. -/

def quoteChar : Char := Char.ofNat 34

def obraceChar : Char := Char.ofNat 123

def cbraceChar : Char := Char.ofNat 125

def bslashChar : Char := Char.ofNat 92

def isWsChar (c : Char) : Bool :=
  c = ' ' || c = Char.ofNat 10 || c = Char.ofNat 9 || c = Char.ofNat 13

def skipWs : List Char → List Char
  | [] => []
  | c :: cs => if isWsChar c then skipWs cs else c :: cs

def digitsVal (ds : List Char) : ℕ :=
  ds.foldl (fun a c => 10 * a + (c.toNat - 48)) 0

def isHexChar (c : Char) : Bool :=
  c.isDigit || ('a' ≤ c && c ≤ 'f') || ('A' ≤ c && c ≤ 'F')

def hexVal (c : Char) : ℕ :=
  if c.isDigit then c.toNat - 48
  else if 'a' ≤ c then c.toNat - 87
  else c.toNat - 55

def hex4Val (h1 h2 h3 h4 : Char) : ℕ :=
  ((hexVal h1 * 16 + hexVal h2) * 16 + hexVal h3) * 16 + hexVal h4

/-- Stand-in for a lone surrogate code unit (legal in a Python `str`,
not a Lean scalar value); no comparison downstream distinguishes
surrogate values, see the module comment above. -/
def loneSurrogateChar : Char := Char.ofNat 65533

/-- Parse a JSON string body after the opening quote, mirroring
`scanstring` of the C scanner with `strict=True`: raw characters below
U+0020 are rejected, the escapes are the eight single-character ones
and `\uXXXX` with exactly four hex digits; a high surrogate followed
by another `\u` escape joins with a low surrogate (and otherwise
leaves the second escape to be rescanned, as the C code rewinds). -/
def parseStringBody : ℕ → List Char → List Char → Option (String × List Char)
  | 0, _, _ => none
  | _ + 1, [], _ => none
  | f + 1, c :: cs, acc =>
    if c = quoteChar then some (String.mk acc.reverse, cs)
    else if c = bslashChar then
      match cs with
      | [] => none
      | e :: cs2 =>
        if e = quoteChar then parseStringBody f cs2 (quoteChar :: acc)
        else if e = bslashChar then parseStringBody f cs2 (bslashChar :: acc)
        else if e = '/' then parseStringBody f cs2 ('/' :: acc)
        else if e = 'n' then parseStringBody f cs2 (Char.ofNat 10 :: acc)
        else if e = 't' then parseStringBody f cs2 (Char.ofNat 9 :: acc)
        else if e = 'r' then parseStringBody f cs2 (Char.ofNat 13 :: acc)
        else if e = 'b' then parseStringBody f cs2 (Char.ofNat 8 :: acc)
        else if e = 'f' then parseStringBody f cs2 (Char.ofNat 12 :: acc)
        else if e = 'u' then
          match cs2 with
          | h1 :: h2 :: h3 :: h4 :: cs3 =>
            if isHexChar h1 && isHexChar h2 && isHexChar h3 && isHexChar h4 then
              if 55296 ≤ hex4Val h1 h2 h3 h4 ∧ hex4Val h1 h2 h3 h4 ≤ 56319 then
                match cs3 with
                | b :: u :: cs4 =>
                  if b = bslashChar ∧ u = 'u' then
                    match cs4 with
                    | h5 :: h6 :: h7 :: h8 :: cs5 =>
                      if isHexChar h5 && isHexChar h6 && isHexChar h7 && isHexChar h8 then
                        if 56320 ≤ hex4Val h5 h6 h7 h8 ∧ hex4Val h5 h6 h7 h8 ≤ 57343 then
                          parseStringBody f cs5
                            (Char.ofNat (65536 + (hex4Val h1 h2 h3 h4 - 55296) * 1024
                              + (hex4Val h5 h6 h7 h8 - 56320)) :: acc)
                        else parseStringBody f (b :: u :: cs4) (loneSurrogateChar :: acc)
                      else none
                    | _ => none
                  else parseStringBody f cs3 (loneSurrogateChar :: acc)
                | _ => parseStringBody f cs3 (loneSurrogateChar :: acc)
              else if 56320 ≤ hex4Val h1 h2 h3 h4 ∧ hex4Val h1 h2 h3 h4 ≤ 57343 then
                parseStringBody f cs3 (loneSurrogateChar :: acc)
              else parseStringBody f cs3 (Char.ofNat (hex4Val h1 h2 h3 h4) :: acc)
            else none
          | _ => none
        else none
    else if c.toNat ≤ 31 then none
    else parseStringBody f cs (c :: acc)

/-- A frame of the JSON parsing machine: a half-built array or a
half-built object waiting for the value of `key`. -/
inductive PFrame where
  | arrF (acc : List JValue) : PFrame
  | objF (acc : List (String × JValue)) (key : String) : PFrame

/-- Integer part of a number per the C scanner: a single `0`, or a
nonzero ASCII digit followed by any ASCII digits. -/
def parseIntPart : List Char → Option (ℕ × List Char)
  | [] => none
  | c :: rest =>
    if c = '0' then some (0, rest)
    else if c.isDigit then
      some (digitsVal ((c :: rest).takeWhile Char.isDigit),
            (c :: rest).dropWhile Char.isDigit)
    else none

/-- Fraction `.[0-9]+` when the `.` is directly followed by a digit;
otherwise nothing is consumed. -/
def parseFracPart : List Char → List Char × List Char
  | '.' :: d :: rest =>
    if d.isDigit then ((d :: rest).takeWhile Char.isDigit, (d :: rest).dropWhile Char.isDigit)
    else ([], '.' :: d :: rest)
  | cs => ([], cs)

/-- Exponent `[eE][+-]?[0-9]+` when digits follow; with no digit after
the optional sign nothing is consumed (the C scanner rewinds to the
`e`). Returns (present, sign-is-minus, magnitude, remainder). -/
def parseExpPart : List Char → Bool × Bool × ℕ × List Char
  | [] => (false, false, 0, [])
  | e :: rest =>
    if e = 'e' ∨ e = 'E' then
      match (if rest.head? = some '+' ∨ rest.head? = some '-' then rest.tail else rest) with
      | rest2 =>
        if (rest2.takeWhile Char.isDigit) = [] then (false, false, 0, e :: rest)
        else (true, rest.head? = some '-', digitsVal (rest2.takeWhile Char.isDigit),
              rest2.dropWhile Char.isDigit)
    else (false, false, 0, e :: rest)

/-- The exact rational value of `±(I.F)·10^{±E}` (Python's `float` is a
binary64; the model keeps floats as exact rationals). -/
def floatVal (neg : Bool) (ipart : ℕ) (fds : List Char) (eneg : Bool) (emag : ℕ) : ℚ :=
  if neg then
    -(if eneg
      then ((ipart : ℚ) + (digitsVal fds : ℚ) / ((10 : ℚ) ^ fds.length)) / ((10 : ℚ) ^ emag)
      else ((ipart : ℚ) + (digitsVal fds : ℚ) / ((10 : ℚ) ^ fds.length)) * ((10 : ℚ) ^ emag))
  else
    (if eneg
      then ((ipart : ℚ) + (digitsVal fds : ℚ) / ((10 : ℚ) ^ fds.length)) / ((10 : ℚ) ^ emag)
      else ((ipart : ℚ) + (digitsVal fds : ℚ) / ((10 : ℚ) ^ fds.length)) * ((10 : ℚ) ^ emag))

/-- `_match_number` of the C scanner: optional minus, integer part,
optional fraction, optional exponent; an integer without fraction or
exponent parses as a Python int, anything else as a float. -/
def parseNumber (cs : List Char) : Option (JValue × List Char) :=
  match parseIntPart (if cs.head? = some '-' then cs.tail else cs) with
  | none => none
  | some (ipart, rest1) =>
    match parseFracPart rest1 with
    | (fds, rest2) =>
      match parseExpPart rest2 with
      | (efound, eneg, emag, rest3) =>
        if fds = [] ∧ efound = false then
          some (.num (if cs.head? = some '-' then -(ipart : ℤ) else (ipart : ℤ)), rest3)
        else
          some (.fnum (floatVal (cs.head? = some '-') ipart fds eneg emag), rest3)

/-- Parse a literal/string/number start of a value (everything except
`[` and `{`), mirroring the dispatch of the C scanner: string, `null`,
`true`, `false`, `NaN`, `Infinity`, `-Infinity`, then a number. -/
def parseScalar (fuel : ℕ) (cs : List Char) : Option (JValue × List Char) :=
  match cs with
  | [] => none
  | c :: rest =>
    if c = quoteChar then
      (parseStringBody fuel rest []).map (fun p => (JValue.str p.1, p.2))
    else if c = 't' then
      if rest.take 3 = ['r', 'u', 'e'] then some (.bool true, rest.drop 3) else none
    else if c = 'f' then
      if rest.take 4 = ['a', 'l', 's', 'e'] then some (.bool false, rest.drop 4) else none
    else if c = 'n' then
      if rest.take 3 = ['u', 'l', 'l'] then some (.null, rest.drop 3) else none
    else if c = 'N' then
      if rest.take 2 = ['a', 'N'] then some (.nan, rest.drop 2) else none
    else if c = 'I' then
      if rest.take 7 = ['n', 'f', 'i', 'n', 'i', 't', 'y'] then some (.inf false, rest.drop 7)
      else none
    else if c = '-' then
      if rest.take 8 = ['I', 'n', 'f', 'i', 'n', 'i', 't', 'y'] then
        some (.inf true, rest.drop 8)
      else parseNumber cs
    else parseNumber cs

/-- One machine: `stack` holds the enclosing unfinished containers, `cur`
the value just completed (if any). Each step consumes at least one
character, so fuel `length + 2` always suffices. -/
def parseLoop : ℕ → List Char → List PFrame → Option JValue → Option (JValue × List Char)
  | 0, _, _, _ => none
  | f + 1, cs, stack, cur =>
    match cur with
    | some v =>
      match stack with
      | [] => some (v, cs)
      | .arrF acc :: stk =>
        match skipWs cs with
        | [] => none
        | c :: rest =>
          if c = ',' then parseLoop f rest (PFrame.arrF (acc ++ [v]) :: stk) none
          else if c = ']' then parseLoop f rest stk (some (.arr (acc ++ [v])))
          else none
      | .objF acc key :: stk =>
        match skipWs cs with
        | [] => none
        | c :: rest =>
          if c = ',' then
            match skipWs rest with
            | c2 :: rest2 =>
              if c2 = quoteChar then
                match parseStringBody f rest2 [] with
                | some (key2, rest3) =>
                  match skipWs rest3 with
                  | c3 :: rest4 =>
                    if c3 = ':' then
                      parseLoop f rest4 (PFrame.objF (acc ++ [(key, v)]) key2 :: stk) none
                    else none
                  | [] => none
                | none => none
              else none
            | [] => none
          else if c = cbraceChar then
            parseLoop f rest stk (some (.obj (acc ++ [(key, v)])))
          else none
    | none =>
      match skipWs cs with
      | [] => none
      | c :: rest =>
        if c = '[' then
          match skipWs rest with
          | c2 :: rest2 =>
            if c2 = ']' then parseLoop f rest2 stack (some (.arr []))
            else parseLoop f (c2 :: rest2) (PFrame.arrF [] :: stack) none
          | [] => none
        else if c = obraceChar then
          match skipWs rest with
          | c2 :: rest2 =>
            if c2 = cbraceChar then parseLoop f rest2 stack (some (.obj []))
            else if c2 = quoteChar then
              match parseStringBody f rest2 [] with
              | some (key, rest3) =>
                match skipWs rest3 with
                | c3 :: rest4 =>
                  if c3 = ':' then parseLoop f rest4 (PFrame.objF [] key :: stack) none
                  else none
                | [] => none
              | none => none
            else none
          | [] => none
        else
          match parseScalar f (c :: rest) with
          | some (v, rest2) => parseLoop f rest2 stack (some v)
          | none => none

/-- Model of `json.loads`: strict parse of the whole text. -/
def jsonParse (s : String) : Option JValue :=
  match parseLoop (s.length + 2) s.toList [] none with
  | some (v, rest) => if skipWs rest = [] then some v else none
  | none => none

/-!
## Tier 2: the greedy embedded-JSON regex

`re.search(r'({[\s\S]*})', result_text)` matches from the **first** `{`
in the text to the **last** `}` (the Kleene star is greedy); there is a
match iff some `{` is followed, anywhere later, by some `}`.
-/

/-- Suffix of the text starting at its first opening brace. -/
def fromFirstBrace : List Char → Option (List Char)
  | [] => none
  | c :: cs => if c = obraceChar then some (c :: cs) else fromFirstBrace cs

/-- On the reversed text: suffix starting at the first closing brace. -/
def upGo : List Char → Option (List Char)
  | [] => none
  | c :: cs => if c = cbraceChar then some (c :: cs) else upGo cs

/-- Drop everything after (and keep) the last closing brace; `none` if
there is no closing brace. -/
def upToLastClose (cs : List Char) : Option (List Char) :=
  (upGo cs.reverse).map List.reverse

/-- The capture of `re.search(r'({[\s\S]*})', text)`: from the first `{`
to the last `}`. -/
def braceSpan (text : String) : Option String :=
  (fromFirstBrace text.toList).bind (fun suffix0 =>
    (upToLastClose suffix0).map (fun span => String.mk span))

/-!
## Tier 3: the regex fallback (lines 130-171)
-/

/-- Case-insensitive "text starts with the (lowercase) pattern". -/
def startsWithCI : List Char → List Char → Bool
  | [], _ => true
  | _ :: _, [] => false
  | a :: as, b :: bs => a = b.toLower && startsWithCI as bs

/-- Remainder of the text after the first case-insensitive occurrence of
the pattern. -/
def afterFirstCI (w : List Char) : List Char → Option (List Char)
  | [] => none
  | c :: cs =>
    if startsWithCI w (c :: cs) then some (List.drop w.length (c :: cs))
    else afterFirstCI w cs

/-- `re.search(word + r'[^\d]*(\d+)', text, re.IGNORECASE)`: the leftmost
occurrence of `word` that is eventually followed by a digit; the capture
is the first digit run after it. (A later occurrence of the word can
only match if the first one does, since any digit after a later
occurrence also lies after the first one.) -/
def firstCountAfter (word : String) (text : String) : Option ℕ :=
  match afterFirstCI word.toList text.toList with
  | none => none
  | some rest =>
    let afterSkip := rest.dropWhile (fun c => !c.isDigit)
    let ds := afterSkip.takeWhile Char.isDigit
    if ds = [] then none else some (digitsVal ds)

/-- Normalization of a sentiment word, lines 158-164 and 211-216:
lowercase membership in `('pos','positive')` / `('neg','negative')`,
anything else becomes `neutral`. -/
def normalizeSentiment (s : String) : String :=
  if s.toLower = "pos" ∨ s.toLower = "positive" then "positive"
  else if s.toLower = "neg" ∨ s.toLower = "negative" then "negative"
  else "neutral"

/-
The individual-sentiment fallback pattern (line 153):
  `POST_ID_(\d+)[^"]+"?sentiment"?:?\s*"?(\w+)"?`   (IGNORECASE)
The only genuine backtracking is between the greedy `(\d+)` and the
mandatory `[^"]+`, and inside `[^"]+` (which must stop exactly where
`"?sentiment` begins).  The optional elements `"? :? \s* "?` are over
pairwise-disjoint character classes, so greedy maximal munch is exact
for them.
-/

def isWordChar (c : Char) : Bool :=
  c.isAlpha || c.isDigit || c = '_'

/-- Match `"?sentiment"?:?\s*"?(\w+)"?` at the head; returns the capture
and the remainder after the match. -/
def matchSentTail (cs : List Char) : Option (String × List Char) :=
  let step1 := if cs.head? = some quoteChar ∧ startsWithCI "sentiment".toList (cs.drop 1)
    then cs.drop 1 else cs
  if startsWithCI "sentiment".toList step1 then
    let cs2 := step1.drop 9
    let cs3 := if cs2.head? = some quoteChar then cs2.drop 1 else cs2
    let cs4 := if cs3.head? = some ':' then cs3.drop 1 else cs3
    let cs5 := cs4.dropWhile isWsChar
    let cs6 := if cs5.head? = some quoteChar then cs5.drop 1 else cs5
    let w := cs6.takeWhile isWordChar
    if w = [] then none
    else
      let cs7 := cs6.drop w.length
      let cs8 := if cs7.head? = some quoteChar then cs7.drop 1 else cs7
      some (String.mk w, cs8)
  else none

/-- Try `[^"]+` of length `j, j-1, ..., 1` (greedy, with backtracking)
followed by `matchSentTail`. -/
def tryNonQuoteRun (tail : List Char) : ℕ → Option (String × List Char)
  | 0 => none
  | j + 1 =>
    match matchSentTail (tail.drop (j + 1)) with
    | some r => some r
    | none => tryNonQuoteRun tail j

/-- Try giving `k, k-1, ..., 1` digits to `(\d+)` (greedy, backtracking
against the following `[^"]+`). -/
def tryDigitSplit (ds rest : List Char) : ℕ → Option (ℕ × String × List Char)
  | 0 => none
  | k + 1 =>
    let tail := ds.drop (k + 1) ++ rest
    let run := tail.takeWhile (fun c => c ≠ quoteChar)
    match tryNonQuoteRun tail run.length with
    | some (w, after) => some (digitsVal (ds.take (k + 1)), w, after)
    | none => tryDigitSplit ds rest k

/-- Match the whole individual pattern at the head of the text. -/
def matchIndividualAt (cs : List Char) : Option (ℕ × String × List Char) :=
  if startsWithCI "post_id_".toList cs then
    let rest := cs.drop 8
    let ds := rest.takeWhile Char.isDigit
    if ds = [] then none
    else tryDigitSplit ds (rest.drop ds.length) ds.length
  else none

/-- `re.finditer` over the individual pattern: scan left to right,
non-overlapping, resuming after each match. -/
def findIndividuals : ℕ → List Char → List (ℕ × String)
  | 0, _ => []
  | _ + 1, [] => []
  | f + 1, c :: cs =>
    match matchIndividualAt (c :: cs) with
    | some (d, w, rest) => (d, normalizeSentiment (String.mk w.toList).toLower) :: findIndividuals f rest
    | none => findIndividuals f cs

/-- The synthetic `result_data` built by the regex fallback
(lines 142-171). -/
def tier3Fallback (text : String) : JValue :=
  let posc := (firstCountAfter "positive" text).getD 0
  let neuc := (firstCountAfter "neutral" text).getD 0
  let negc := (firstCountAfter "negative" text).getD 0
  let inds := findIndividuals (text.length + 1) text.toList
  JValue.obj
    [("summary", JValue.obj
        [("positive", JValue.num posc),
         ("neutral", JValue.num neuc),
         ("negative", JValue.num negc)]),
     ("individual", JValue.arr (inds.map (fun p =>
        JValue.obj [("post_id", JValue.str ("POST_ID_" ++ toString p.1)),
                    ("sentiment", JValue.str p.2)])))]

/-!
## The three extraction tiers composed (lines 114-150)

After the `except` branch, `result_data` is always set: tier 1 may leave
a falsy parsed value (e.g. `{}` or `null`), in which case line 174 sends
the batch to the failed-batch branch; when tier 1 raises, tiers 2 and 3
guarantee a (truthy) dict.
-/

def extract_result_data (text : String) : JValue :=
  match jsonParse text with
  | some v => v
  | none =>
    match (braceSpan text).bind jsonParse with
    | some v => if isTruthy v then v else tier3Fallback text
    | none => tier3Fallback text

/-!
## Processing one parsed batch result (lines 174-243)

Mutable per-run state of `analyze_sentiment_with_details`: the three raw
counters, the `post_sentiments` list (each appended entry models
`post.copy()` plus a `sentiment` key, identified here by the post's
global index), and the `processed_indices` set (kept as the list of
indices in insertion order; `entriesOf`-invariance below shows it stays
duplicate-free).
-/

structure AState where
  pos : ℤ
  neu : ℤ
  neg : ℤ
  entries : List (ℕ × String)
  processed : List ℕ

def initState : AState := ⟨0, 0, 0, [], []⟩

/-- `summary.get(cat, 0)` values in
`batch_positive + batch_neutral + batch_negative` and the comparisons
that follow. JSON booleans are Python `bool`, a subclass of `int`.
A `str` raises at `> 0` and `list`/`dict`/`None` already at `+`,
modelled as `none` here. Float counts would flow through Python's
float arithmetic instead; that fragment is not modelled — `none` makes
the model's run fail, and every theorem below whose conclusion reaches
these lines pins integer counts in its hypotheses, so no statement
ranges over the unmodelled float-count behaviour. -/
def jnumVal : JValue → Option ℤ
  | .num n => some n
  | .bool b => some (if b then 1 else 0)
  | _ => none

/-- `for ind in individuals:` — what iterating the `individual` value
yields. Iterating a string yields its characters (as 1-char strings) and
a dict yields its keys; numbers/booleans/None are not iterable
(TypeError). -/
def getIndividualList : JValue → Except String (List JValue)
  | .arr xs => .ok xs
  | .str s => .ok (s.toList.map (fun c => JValue.str (String.mk [c])))
  | .obj fs => .ok (fs.map (fun p => JValue.str p.1))
  | _ => .error "TypeError: object is not iterable"

/-- Dict assignment `sentiment_map[post_index] = sentiment`: overwrite in
place or append. -/
def mapInsert (m : List (ℕ × String)) (k : ℕ) (v : String) : List (ℕ × String) :=
  match m with
  | [] => [(k, v)]
  | (k2, v2) :: rest =>
    if k2 = k then (k2, v) :: rest else (k2, v2) :: mapInsert rest k v

/-- `sentiment_map.get(post_index, 'neutral')`. -/
def mapLookupD (m : List (ℕ × String)) (k : ℕ) (dflt : String) : String :=
  match m with
  | [] => dflt
  | (k2, v) :: rest => if k2 = k then v else mapLookupD rest k dflt

/-- `re.search(r'POST_ID_(\d+)', post_id_str)` (case-sensitive): first
position where `POST_ID_` is immediately followed by a digit; the value
is that digit run. -/
def findPostIdNum : List Char → Option ℕ
  | [] => none
  | c :: cs =>
    if "POST_ID_".toList.isPrefixOf (c :: cs) then
      let rest := List.drop 8 (c :: cs)
      let ds := rest.takeWhile Char.isDigit
      if ds = [] then findPostIdNum cs else some (digitsVal ds)
    else findPostIdNum cs

/-- Lines 207-221: one element of `individuals`. Non-dict elements raise
at `ind.get`; a non-string sentiment raises at `.lower()` (line 211)
before a non-string post_id raises at `re.search` (line 218). -/
def processInd (m : List (ℕ × String)) (ind : JValue) : Except String (List (ℕ × String)) :=
  match ind with
  | .obj _ =>
    match jget ind "sentiment" (JValue.str "neutral") with
    | .str s =>
      match jget ind "post_id" (JValue.str "") with
      | .str ps =>
        match findPostIdNum ps.toList with
        | some i => .ok (mapInsert m i (normalizeSentiment s))
        | none => .ok m
      | _ => .error "TypeError: expected string or bytes-like object"
    | _ => .error "AttributeError: lower"
  | _ => .error "AttributeError: get"

/-- Lines 224-230 (and the identical loop of the failed-batch branch,
lines 234-240, which uses an empty map): assign a sentiment to every
not-yet-processed post of the batch, in index order. -/
def assignStep (batchStart : ℕ) (m : List (ℕ × String)) (st : AState) (i : ℕ) : AState :=
  if batchStart + i ∈ st.processed then st
  else { st with
    entries := st.entries ++ [(batchStart + i, mapLookupD m (batchStart + i) "neutral")],
    processed := st.processed ++ [batchStart + i] }

def assignLoop (batchStart len : ℕ) (m : List (ℕ × String)) (st : AState) : AState :=
  (List.range len).foldl (assignStep batchStart m) st

/-- Lines 176-230: process a truthy `result_data` for the batch starting
at `batchStart` of length `len`. -/
def processData (v : JValue) (batchStart len : ℕ) (st : AState) : Except String AState :=
  if !v.isObj then .error "AttributeError: get" else
  if !(jget v "summary" (JValue.obj [])).isObj then .error "AttributeError: get" else
  match jnumVal (jget (jget v "summary" (JValue.obj [])) "positive" (JValue.num 0)),
        jnumVal (jget (jget v "summary" (JValue.obj [])) "neutral" (JValue.num 0)),
        jnumVal (jget (jget v "summary" (JValue.obj [])) "negative" (JValue.num 0)) with
  | some p, some n, some g =>
    match getIndividualList (jget v "individual" (JValue.arr [])) with
    | .error e => .error e
    | .ok inds =>
      match inds.foldlM processInd [] with
      | .error e => .error e
      | .ok m =>
        .ok (assignLoop batchStart len m
          { st with
            pos := st.pos + (reconcileCounts p n g len).1,
            neu := st.neu + (reconcileCounts p n g len).2.1,
            neg := st.neg + (reconcileCounts p n g len).2.2 })
  | _, _, _ => .error "TypeError: unsupported operand types"

/-- Lines 231-243: the failed-batch branch (falsy `result_data`): every
unprocessed post of the batch gets `neutral` and the whole batch is
counted as neutral. -/
def failedBatch (batchStart len : ℕ) (st : AState) : AState :=
  let st2 := assignLoop batchStart len [] st
  { st2 with neu := st2.neu + len }

/-- Body of one iteration of the batch loop (lines 105-243) given the
oracle response text for the batch. An empty `result_text` is the
`continue` of line 109. -/
def runBatchText (text : String) (batchStart len : ℕ) (st : AState) :
    Except String AState :=
  if text = "" then .ok st
  else if isTruthy (extract_result_data text) then
    processData (extract_result_data text) batchStart len st
  else .ok (failedBatch batchStart len st)

/-- One iteration of the batch loop (lines 56-243) for batch index `bi`. -/
def batchStep (responses : List String) (n batchSize : ℕ) (st : AState) (bi : ℕ) :
    Except String AState :=
  let batchStart := bi * batchSize
  let len := min (batchStart + batchSize) n - batchStart
  runBatchText (responses.getD bi "") batchStart len st

/-- Lines 246-254: the closing consistency check — every input index not
yet processed is appended with a `neutral` default (and counted as
neutral). -/
def fillMissing (n : ℕ) (st : AState) : AState :=
  let missing := (List.range n).filter (fun i => i ∉ st.processed)
  { st with
    entries := st.entries ++ missing.map (fun i => (i, "neutral")),
    neu := st.neu + missing.length }

/-- Embedding of `analyze_sentiment_with_details` (lines 14-289). The
posts are given by their `text` fields; `responses` supplies the oracle
response text per batch (the external `workflow.run_tasks()` result);
the returned entry list pairs each post's global index with its
assigned sentiment (modelling the post copy with the added `sentiment`
key; `process_timestamps` mutates timestamps in place and changes
neither order nor membership of this list). -/
def analyze_sentiment_with_details (posts : List String) (responses : List String)
    (batchSize : ℕ) : Except String ((ℤ × ℤ × ℤ) × List (ℕ × String)) :=
  if posts.isEmpty then .ok ((0, 0, 0), [])
  else if batchSize = 0 then .error "ValueError: range arg 3 must not be zero"
  else
    match (List.range ((posts.length + batchSize - 1) / batchSize)).foldlM
        (batchStep responses posts.length batchSize) initState with
    | .error e => .error e
    | .ok st =>
      .ok (overallPercentages (fillMissing posts.length st).pos
            (fillMissing posts.length st).neu (fillMissing posts.length st).neg,
          (fillMissing posts.length st).entries)

/-!
## C3: totality of the core

The claim fails on the code: `json.loads` can succeed on any JSON
document, and a truthy non-dict result (for example the valid JSON text
`[1]`) reaches `result_data.get('summary', {})` on line 176, which
raises `AttributeError` — an uncaught exception that propagates to the
caller instead of an `AggregateResult`. The spec (§7) is explicit that
no condition may propagate as a fatal failure, and the surrounding code
(three parser tiers, reconciliation, final gap-filling) shows totality
is the intent, so this is a code bug.
-/

/-- **C3.** On a 1-post input whose oracle response is the valid JSON
text `[1]`, the pipeline raises (`AttributeError` at
`result_data.get('summary', {})`, line 176) instead of returning a
result. -/
theorem pipeline_raises_on_nondict_json :
    analyze_sentiment_with_details ["hi"] ["[1]"] 50 = .error "AttributeError: get" := by
  rfl

/-!
## C9: the embedded-JSON tier

The regex `({[\s\S]*})` is greedy: it captures from the **first** `{` to
the **last** `}` of the response. That span is not in general the first
balanced `{...}` substring — any stray `}` after the embedded object
makes the strict parse of the span fail, even though a balanced
schema-conforming object is embedded in the text.
-/

def c9mid : String :=
  "\x7b\"summary\": \x7b\"positive\": 1, \"neutral\": 0, \"negative\": 0\x7d, \"individual\": []\x7d"

def c9val : JValue :=
  JValue.obj
    [("summary", JValue.obj
        [("positive", JValue.num 1), ("neutral", JValue.num 0), ("negative", JValue.num 0)]),
     ("individual", JValue.arr [])]

def c9text : String := "Result: " ++ c9mid ++ " Done. :\x7d"

/-- **C9, counterexample.** `c9text` is not itself valid JSON but
contains the valid, schema-conforming, truthy JSON object `c9mid`
embedded in prose; yet the second tier recovers nothing, because the
greedy capture runs to the final `}` of the trailing smiley and fails to
parse. -/
theorem tier2_greedy_counterexample :
    c9text = "Result: " ++ c9mid ++ " Done. :\x7d" ∧
    jsonParse c9text = none ∧
    jsonParse c9mid = some c9val ∧
    isTruthy c9val = true ∧
    braceSpan c9text = some (c9mid ++ " Done. :\x7d") ∧
    (braceSpan c9text).bind jsonParse = none := by
  exact ⟨rfl, rfl, rfl, rfl, rfl, rfl⟩

theorem toList_append (a b : String) : (a ++ b).toList = a.toList ++ b.toList :=
  String.data_append a b

theorem mk_toList (s : String) : String.mk s.toList = s := by
  cases s
  rfl

theorem fromFirstBrace_append {l1 l2 : List Char} (h : ∀ c ∈ l1, c ≠ obraceChar) :
    fromFirstBrace (l1 ++ l2) = fromFirstBrace l2 := by
  induction l1 with
  | nil => rfl
  | cons c cs ih =>
    simp only [List.cons_append, fromFirstBrace]
    rw [if_neg (h c (by simp))]
    exact ih (fun c2 hc2 => h c2 (by simp [hc2]))

theorem upGo_append {l1 l2 : List Char} (h : ∀ c ∈ l1, c ≠ cbraceChar) :
    upGo (l1 ++ l2) = upGo l2 := by
  induction l1 with
  | nil => rfl
  | cons c cs ih =>
    simp only [List.cons_append, upGo]
    rw [if_neg (h c (by simp))]
    exact ih (fun c2 hc2 => h c2 (by simp [hc2]))

/-- The greedy tier-2 capture on `pre ++ mid ++ post` is exactly `mid`
when `pre` holds no `{`, `post` holds no `}`, and `mid` starts with `{`
and ends with `}`. -/
theorem braceSpan_embedded (pre mid post : String)
    (hpre : ∀ c ∈ pre.toList, c ≠ obraceChar)
    (hpost : ∀ c ∈ post.toList, c ≠ cbraceChar)
    (hmidh : mid.toList.head? = some obraceChar)
    (hmidl : mid.toList.getLast? = some cbraceChar) :
    braceSpan (pre ++ mid ++ post) = some mid := by
  obtain ⟨t, ht⟩ : ∃ t, mid.toList = obraceChar :: t := by
    cases hm : mid.toList with
    | nil => rw [hm] at hmidh; simp at hmidh
    | cons a t =>
      rw [hm] at hmidh
      simp only [List.head?_cons, Option.some.injEq] at hmidh
      exact ⟨t, by rw [hmidh]⟩
  obtain ⟨r, hr⟩ : ∃ r, mid.toList.reverse = cbraceChar :: r := by
    cases hm : mid.toList.reverse with
    | nil =>
      have hnil : mid.toList = [] := by
        have := congrArg List.reverse hm
        simpa using this
      rw [hnil] at hmidl
      simp at hmidl
    | cons a r =>
      have hh : mid.toList.reverse.head? = some cbraceChar := by
        rw [List.head?_reverse]
        exact hmidl
      rw [hm] at hh
      simp only [List.head?_cons, Option.some.injEq] at hh
      subst hh
      exact ⟨r, rfl⟩
  unfold braceSpan
  rw [toList_append, toList_append, List.append_assoc, fromFirstBrace_append hpre, ht]
  rw [show (obraceChar :: t) ++ post.toList = obraceChar :: (t ++ post.toList) from rfl]
  rw [show fromFirstBrace (obraceChar :: (t ++ post.toList))
        = some (obraceChar :: (t ++ post.toList)) from by simp [fromFirstBrace]]
  rw [Option.some_bind]
  unfold upToLastClose
  rw [show (obraceChar :: (t ++ post.toList)).reverse
        = post.toList.reverse ++ (obraceChar :: t).reverse from by
      simp]
  rw [upGo_append (fun c hc => hpost c (List.mem_reverse.mp hc))]
  rw [← ht, hr]
  rw [show upGo (cbraceChar :: r) = some (cbraceChar :: r) from by
      simp [upGo]]
  simp only [Option.map_some']
  rw [show (cbraceChar :: r).reverse = mid.toList from by rw [← hr]; simp]
  rw [mk_toList]

/-- **C9, amended.** Tier 2 captures the span from the first `{` to the
last `}` of the response and strict-parses that span; consequently it
recovers an embedded schema object exactly when that greedy span parses
— in particular whenever no `{` precedes the embedded object and no `}`
follows it. -/
theorem tier2_recovers_embedded (pre mid post : String) (v : JValue)
    (hpre : ∀ c ∈ pre.toList, c ≠ obraceChar)
    (hpost : ∀ c ∈ post.toList, c ≠ cbraceChar)
    (hmidh : mid.toList.head? = some obraceChar)
    (hmidl : mid.toList.getLast? = some cbraceChar)
    (hnotjson : jsonParse (pre ++ mid ++ post) = none)
    (hmid : jsonParse mid = some v)
    (htruthy : isTruthy v = true) :
    extract_result_data (pre ++ mid ++ post) = v := by
  have hb := braceSpan_embedded pre mid post hpre hpost hmidh hmidl
  unfold extract_result_data
  rw [hnotjson, hb]
  simp [Option.bind, hmid, htruthy]

/-- Witness for the amended C9 at a concrete prose-wrapped response. -/
theorem tier2_recovers_embedded_witness :
    extract_result_data ("Note: " ++ c9mid ++ " end.") = c9val := by
  apply tier2_recovers_embedded "Note: " c9mid " end." c9val
  · decide
  · decide
  · rfl
  · rfl
  · rfl
  · rfl
  · rfl

/-!
## Behaviour of the per-batch assignment loop
-/

/-- The assignment loop never touches the three counters. -/
theorem assignLoop_counts (batchStart len : ℕ) (m : List (ℕ × String)) (st : AState) :
    (assignLoop batchStart len m st).pos = st.pos ∧
    (assignLoop batchStart len m st).neu = st.neu ∧
    (assignLoop batchStart len m st).neg = st.neg := by
  unfold assignLoop
  induction List.range len generalizing st with
  | nil => exact ⟨rfl, rfl, rfl⟩
  | cons a l ih =>
    rw [List.foldl_cons]
    refine (ih (assignStep batchStart m st a)).imp ?_ (fun h => h.imp ?_ ?_) <;>
      intro h <;> rw [h] <;> unfold assignStep <;> split <;> rfl

/-!
## C4: a batch with no extractable data degrades to all-neutral

The fallback regexes run under Python's Unicode `re` semantics (`\d` is
the Unicode decimal digits, `\w` and `IGNORECASE` fold beyond ASCII);
the regex models above cover the ASCII fragment, so the claim is stated
for ASCII response texts.
-/

/-- A well-formed `individual` element of the expected schema. -/
def wfIndividual (e : JValue) : Prop :=
  ∃ i s, e = JValue.obj [("post_id", JValue.str i), ("sentiment", JValue.str s)]

theorem processInd_all_ok (inds : List JValue) :
    ∀ m, (∀ e ∈ inds, wfIndividual e) →
    ∃ m2, inds.foldlM processInd m = Except.ok m2 := by
  induction inds with
  | nil => exact fun m _ => ⟨m, rfl⟩
  | cons e rest ih =>
    intro m h
    obtain ⟨i, s, he⟩ := h e (by simp)
    subst he
    have hred : processInd m (JValue.obj [("post_id", JValue.str i), ("sentiment", JValue.str s)])
        = (match findPostIdNum i.toList with
           | some k => Except.ok (mapInsert m k (normalizeSentiment s))
           | none => Except.ok m) := rfl
    cases hf : findPostIdNum i.toList with
    | none =>
      obtain ⟨m2, hm2⟩ := ih m (fun e2 he2 => h e2 (by simp [he2]))
      refine ⟨m2, ?_⟩
      rw [List.foldlM_cons, hred, hf]
      exact hm2
    | some k =>
      obtain ⟨m2, hm2⟩ := ih (mapInsert m k (normalizeSentiment s))
        (fun e2 he2 => h e2 (by simp [he2]))
      refine ⟨m2, ?_⟩
      rw [List.foldlM_cons, hred, hf]
      exact hm2

/-- The expected schema object with reported counts `p, n, g`. -/
def schemaObj (p n g : ℤ) (inds : List JValue) : JValue :=
  JValue.obj
    [("summary", JValue.obj
        [("positive", JValue.num p), ("neutral", JValue.num n), ("negative", JValue.num g)]),
     ("individual", JValue.arr inds)]

/-- **C7.** If the oracle response is valid strict JSON of the expected
schema and its summary counts sum exactly to the batch size, the count
reconciler is the identity on the reported counts and the batch adds
exactly `(p, n, g)` to the running counters. -/
theorem valid_json_passthrough (text : String) (p n g : ℤ) (inds : List JValue)
    (batchStart len : ℕ) (st : AState)
    (hparse : jsonParse text = some (schemaObj p n g inds))
    (hsum : p + n + g = (len : ℤ))
    (hwf : ∀ e ∈ inds, wfIndividual e) :
    reconcileCounts p n g len = (p, n, g) ∧
    ∃ st2, runBatchText text batchStart len st = .ok st2 ∧
      st2.pos = st.pos + p ∧ st2.neu = st.neu + n ∧ st2.neg = st.neg + g := by
  have hrec : reconcileCounts p n g len = (p, n, g) := by
    unfold reconcileCounts
    rw [if_pos hsum]
  refine ⟨hrec, ?_⟩
  have hne : text ≠ "" := by
    intro h
    rw [h] at hparse
    exact Option.noConfusion hparse
  have hex : extract_result_data text = schemaObj p n g inds := by
    unfold extract_result_data
    rw [hparse]
  have htr : isTruthy (schemaObj p n g inds) = true := rfl
  obtain ⟨m2, hm2⟩ := processInd_all_ok inds [] hwf
  have hpd : processData (schemaObj p n g inds) batchStart len st =
      (match inds.foldlM processInd [] with
       | .error e => .error e
       | .ok m =>
         Except.ok (assignLoop batchStart len m
           { st with
             pos := st.pos + (reconcileCounts p n g len).1,
             neu := st.neu + (reconcileCounts p n g len).2.1,
             neg := st.neg + (reconcileCounts p n g len).2.2 })) := rfl
  refine ⟨assignLoop batchStart len m2
      { st with
        pos := st.pos + (reconcileCounts p n g len).1,
        neu := st.neu + (reconcileCounts p n g len).2.1,
        neg := st.neg + (reconcileCounts p n g len).2.2 }, ?_, ?_, ?_, ?_⟩
  · unfold runBatchText
    rw [if_neg hne, hex]
    rw [if_pos htr, hpd, hm2]
  · rw [(assignLoop_counts _ _ _ _).1, hrec]
  · rw [(assignLoop_counts _ _ _ _).2.1, hrec]
  · rw [(assignLoop_counts _ _ _ _).2.2, hrec]

set_option maxRecDepth 8000 in
/-- Witness for C7 at a concrete schema-conforming response (summary
counts 2/1/0, one individual entry) for a batch of size 3. -/
theorem valid_json_passthrough_witness :
    reconcileCounts 2 1 0 3 = (2, 1, 0) ∧
    ∃ st2, runBatchText
      "\x7b\"summary\": \x7b\"positive\": 2, \"neutral\": 1, \"negative\": 0\x7d, \"individual\": [\x7b\"post_id\": \"POST_ID_0\", \"sentiment\": \"positive\"\x7d]\x7d"
      0 3 initState = .ok st2 ∧
      st2.pos = initState.pos + 2 ∧ st2.neu = initState.neu + 1 ∧ st2.neg = initState.neg + 0 := by
  exact valid_json_passthrough _ 2 1 0
    [JValue.obj [("post_id", JValue.str "POST_ID_0"), ("sentiment", JValue.str "positive")]]
    0 3 initState rfl (by norm_num)
    (by
      intro e he
      simp only [List.mem_singleton] at he
      exact ⟨"POST_ID_0", "positive", he⟩)

/-!
## C10: one sentiment entry per input post

The invariant tracked through the batch loop: the indices of the
appended entries are exactly the processed-index list (in order), free
of duplicates, below the input length, and every appended sentiment is
one of the three categories.
-/

def validSent (s : String) : Prop :=
  s = "positive" ∨ s = "neutral" ∨ s = "negative"

theorem validSent_normalize (s : String) : validSent (normalizeSentiment s) := by
  unfold normalizeSentiment validSent
  split
  · left; rfl
  · split
    · right; right; rfl
    · right; left; rfl

def mapValsValid (m : List (ℕ × String)) : Prop := ∀ e ∈ m, validSent e.2

theorem mapInsert_subset {k : ℕ} {v : String} :
    ∀ (m : List (ℕ × String)), ∀ e ∈ mapInsert m k v, e = (k, v) ∨ e ∈ m := by
  intro m
  induction m with
  | nil =>
    intro e he
    simp only [mapInsert, List.mem_singleton] at he
    left; exact he
  | cons p rest ih =>
    obtain ⟨k2, v2⟩ := p
    intro e he
    simp only [mapInsert] at he
    split at he
    · rename_i hk
      rcases List.mem_cons.mp he with h | h
      · left; rw [h, hk]
      · right; exact List.mem_cons_of_mem _ h
    · rcases List.mem_cons.mp he with h | h
      · right; rw [h]; exact List.mem_cons_self _ _
      · rcases ih e h with h2 | h2
        · left; exact h2
        · right; exact List.mem_cons_of_mem _ h2

theorem mapInsert_valid {m : List (ℕ × String)} (hm : mapValsValid m) {k : ℕ} {v : String}
    (hv : validSent v) : mapValsValid (mapInsert m k v) := by
  intro e he
  rcases mapInsert_subset m e he with h | h
  · rw [h]; exact hv
  · exact hm e h

theorem mapLookupD_valid :
    ∀ (m : List (ℕ × String)), mapValsValid m → ∀ (k : ℕ) (d : String), validSent d →
      validSent (mapLookupD m k d) := by
  intro m
  induction m with
  | nil => intro _ k d hd; exact hd
  | cons p rest ih =>
    obtain ⟨k2, v2⟩ := p
    intro hm k d hd
    simp only [mapLookupD]
    split
    · exact hm (k2, v2) (by simp)
    · exact ih (fun e he => hm e (List.mem_cons_of_mem _ he)) k d hd

theorem processInd_valid :
    ∀ (m : List (ℕ × String)) (ind : JValue) (m2 : List (ℕ × String)),
      mapValsValid m → processInd m ind = .ok m2 → mapValsValid m2 := by
  intro m ind m2 hm h
  unfold processInd at h
  split at h
  · split at h
    · split at h
      · split at h
        · injection h with h2
          rw [← h2]
          exact mapInsert_valid hm (validSent_normalize _)
        · injection h with h2
          rw [← h2]
          exact hm
      · exact Except.noConfusion h
    · exact Except.noConfusion h
  · exact Except.noConfusion h

theorem foldlM_processInd_valid :
    ∀ (inds : List JValue) (m m2 : List (ℕ × String)),
      mapValsValid m → inds.foldlM processInd m = .ok m2 → mapValsValid m2 := by
  intro inds
  induction inds with
  | nil =>
    intro m m2 hm h
    injection h with h2
    rw [← h2]
    exact hm
  | cons e rest ih =>
    intro m m2 hm h
    rw [List.foldlM_cons] at h
    cases hpe : processInd m e with
    | error err =>
      rw [hpe] at h
      exact Except.noConfusion h
    | ok m1 =>
      rw [hpe] at h
      exact ih m1 m2 (processInd_valid m e m1 hm hpe) h

/-- The loop invariant of the whole run (input length `B`). -/
def StInv (B : ℕ) (st : AState) : Prop :=
  st.entries.map Prod.fst = st.processed ∧
  st.processed.Nodup ∧
  (∀ i ∈ st.processed, i < B) ∧
  (∀ e ∈ st.entries, validSent e.2)

theorem initState_inv (B : ℕ) : StInv B initState := by
  refine ⟨rfl, List.nodup_nil, ?_, ?_⟩ <;> intro x hx <;> exact absurd hx (List.not_mem_nil x)

theorem assignStep_inv (B batchStart : ℕ) (m : List (ℕ × String)) (st : AState) (i : ℕ)
    (hm : mapValsValid m) (hst : StInv B st) (hi : batchStart + i < B) :
    StInv B (assignStep batchStart m st i) := by
  obtain ⟨h1, h2, h3, h4⟩ := hst
  unfold assignStep
  split
  · exact ⟨h1, h2, h3, h4⟩
  · rename_i hmem
    refine ⟨?_, ?_, ?_, ?_⟩
    · simp only [List.map_append, List.map_cons, List.map_nil, h1]
    · rw [List.nodup_append]
      refine ⟨h2, List.nodup_singleton _, ?_⟩
      intro x hx hx2
      simp only [List.mem_singleton] at hx2
      rw [hx2] at hx
      exact hmem hx
    · intro j hj
      rcases List.mem_append.mp hj with h | h
      · exact h3 j h
      · simp only [List.mem_singleton] at h
        omega
    · intro e he
      rcases List.mem_append.mp he with h | h
      · exact h4 e h
      · simp only [List.mem_singleton] at h
        rw [h]
        exact mapLookupD_valid m hm _ _ (Or.inr (Or.inl rfl))

theorem assignLoop_inv (B batchStart len : ℕ) (m : List (ℕ × String)) (st : AState)
    (hm : mapValsValid m) (hst : StInv B st) (hlt : ∀ i < len, batchStart + i < B) :
    StInv B (assignLoop batchStart len m st) := by
  unfold assignLoop
  have key : ∀ (l : List ℕ) (st : AState), (∀ i ∈ l, batchStart + i < B) → StInv B st →
      StInv B (l.foldl (assignStep batchStart m) st) := by
    intro l
    induction l with
    | nil => intro st _ h; exact h
    | cons a t ih =>
      intro st hl hst
      rw [List.foldl_cons]
      exact ih _ (fun i hi => hl i (by simp [hi]))
        (assignStep_inv B batchStart m st a hm hst (hl a (by simp)))
  exact key _ st (fun i hi => hlt i (List.mem_range.mp hi)) hst

theorem processData_inv (B : ℕ) (v : JValue) (batchStart len : ℕ) (st st2 : AState)
    (hst : StInv B st) (hlt : ∀ i < len, batchStart + i < B)
    (h : processData v batchStart len st = .ok st2) : StInv B st2 := by
  unfold processData at h
  split at h
  · exact Except.noConfusion h
  · split at h
    · exact Except.noConfusion h
    · split at h
      · split at h
        · exact Except.noConfusion h
        · split at h
          · exact Except.noConfusion h
          · rename_i hfold
            injection h with h2
            rw [← h2]
            refine assignLoop_inv B batchStart len _ _ ?_ ?_ hlt
            · exact foldlM_processInd_valid _ [] _
                (fun e he => absurd he (List.not_mem_nil e)) hfold
            · exact ⟨hst.1, hst.2.1, hst.2.2.1, hst.2.2.2⟩
      · exact Except.noConfusion h

theorem failedBatch_inv (B batchStart len : ℕ) (st : AState)
    (hst : StInv B st) (hlt : ∀ i < len, batchStart + i < B) :
    StInv B (failedBatch batchStart len st) := by
  unfold failedBatch
  have h := assignLoop_inv B batchStart len [] st
    (fun e he => absurd he (List.not_mem_nil e)) hst hlt
  exact ⟨h.1, h.2.1, h.2.2.1, h.2.2.2⟩

theorem runBatchText_inv (B : ℕ) (text : String) (batchStart len : ℕ) (st st2 : AState)
    (hst : StInv B st) (hlt : ∀ i < len, batchStart + i < B)
    (h : runBatchText text batchStart len st = .ok st2) : StInv B st2 := by
  unfold runBatchText at h
  split at h
  · injection h with h2
    rw [← h2]
    exact hst
  · split at h
    · exact processData_inv B _ batchStart len st st2 hst hlt h
    · injection h with h2
      rw [← h2]
      exact failedBatch_inv B batchStart len st hst hlt

theorem batchStep_inv (responses : List String) (n batchSize : ℕ) (st st2 : AState) (bi : ℕ)
    (hst : StInv n st) (h : batchStep responses n batchSize st bi = .ok st2) : StInv n st2 := by
  unfold batchStep at h
  refine runBatchText_inv n _ _ _ st st2 hst ?_ h
  intro i hi
  omega

theorem foldlM_batchStep_inv :
    ∀ (l : List ℕ) (responses : List String) (n batchSize : ℕ) (st st2 : AState),
      StInv n st → l.foldlM (batchStep responses n batchSize) st = .ok st2 → StInv n st2 := by
  intro l
  induction l with
  | nil =>
    intro rs n bsz st st2 hst h
    injection h with h2
    rw [← h2]
    exact hst
  | cons a t ih =>
    intro rs n bsz st st2 hst h
    rw [List.foldlM_cons] at h
    cases hb : batchStep rs n bsz st a with
    | error e =>
      rw [hb] at h
      exact Except.noConfusion h
    | ok st1 =>
      rw [hb] at h
      exact ih rs n bsz st1 st2 (batchStep_inv rs n bsz st st1 a hst hb) h

/-- The closing gap-fill turns any invariant-satisfying state into a
complete, duplicate-free cover of all input indices. -/
theorem fillMissing_spec (n : ℕ) (st : AState) (h : StInv n st) :
    List.Perm ((fillMissing n st).entries.map Prod.fst) (List.range n) ∧
    ∀ e ∈ (fillMissing n st).entries, validSent e.2 := by
  obtain ⟨h1, h2, h3, h4⟩ := h
  constructor
  · unfold fillMissing
    simp only [List.map_append, List.map_map]
    have hp1 : List.Perm st.processed
        ((List.range n).filter (fun i => decide (i ∈ st.processed))) := by
      apply (List.perm_ext_iff_of_nodup h2 (List.Nodup.filter _ (List.nodup_range n))).mpr
      intro a
      simp only [List.mem_filter, List.mem_range, decide_eq_true_eq]
      constructor
      · intro ha
        exact ⟨h3 a ha, ha⟩
      · intro ha
        exact ha.2
    have hfilters : List.Perm
        ((List.range n).filter (fun i => decide (i ∈ st.processed)) ++
          (List.range n).filter (fun i => decide (i ∉ st.processed))) (List.range n) := by
      have hfp := List.filter_append_perm (fun i => decide (i ∈ st.processed)) (List.range n)
      have hnot : (fun i => !(decide (i ∈ st.processed)))
          = (fun i => decide (i ∉ st.processed)) := by
        funext i
        simp [decide_not]
      rw [hnot] at hfp
      exact hfp
    rw [h1, show (Prod.fst ∘ (fun i => ((i, "neutral") : ℕ × String))) = id from rfl,
        List.map_id]
    exact List.Perm.trans (hp1.append_right _) hfilters
  · intro e he
    unfold fillMissing at he
    rcases List.mem_append.mp he with hh | hh
    · exact h4 e hh
    · obtain ⟨i, hi, he2⟩ := List.mem_map.mp hh
      rw [← he2]
      exact Or.inr (Or.inl rfl)

/-- **C10.** Whenever the detailed analysis returns, the returned
per-post list has exactly one entry per input post — its first
components are a permutation of the input index range, regardless of
which batches failed, which indices the individual mapping mentioned, or
how often — and every entry carries one of the three sentiments. -/
theorem per_post_list_complete (posts responses : List String) (batchSize : ℕ)
    (c : ℤ × ℤ × ℤ) (entries : List (ℕ × String))
    (h : analyze_sentiment_with_details posts responses batchSize = .ok (c, entries)) :
    List.Perm (entries.map Prod.fst) (List.range posts.length) ∧
    ∀ e ∈ entries, e.2 = "positive" ∨ e.2 = "neutral" ∨ e.2 = "negative" := by
  unfold analyze_sentiment_with_details at h
  split at h
  · rename_i hemp
    injection h with h2
    injection h2 with hc he
    rw [List.isEmpty_iff] at hemp
    rw [← he, hemp]
    exact ⟨List.Perm.refl _, fun e he2 => absurd he2 (List.not_mem_nil e)⟩
  · split at h
    · exact Except.noConfusion h
    · split at h
      · exact Except.noConfusion h
      · rename_i st hfold
        injection h with h2
        injection h2 with hc he
        have hinv : StInv posts.length st :=
          foldlM_batchStep_inv _ responses posts.length batchSize initState st
            (initState_inv _) hfold
        have hf := fillMissing_spec posts.length st hinv
        rw [he] at hf
        exact hf

/-- Witness for C10: a 2-post run whose single batch response is
unusable prose returns one neutral entry per post. -/
theorem per_post_list_complete_witness :
    List.Perm ([((0 : ℕ), "neutral"), (1, "neutral")].map Prod.fst) (List.range 2) ∧
    ∀ e ∈ [((0 : ℕ), "neutral"), (1, "neutral")],
      e.2 = "positive" ∨ e.2 = "neutral" ∨ e.2 = "negative" := by
  have h : analyze_sentiment_with_details ["a", "b"] ["garbage text"] 50
      = .ok (overallPercentages 0 2 0, [((0 : ℕ), "neutral"), (1, "neutral")]) := rfl
  exact per_post_list_complete ["a", "b"] ["garbage text"] 50 _ _ h

/-!
## Time bucketer: `get_sentiment_over_time` (lines 364-487)

Timestamps are modelled as epoch seconds (`ℤ`); the `strftime` /
`isocalendar` period labels are modelled by the `PKey` inductive, one
constructor per label format, with the bucket index as argument — equal
instants get equal keys and the keys partition time into the same
hour/day/ISO-week intervals as the calendar labels (the epoch,
1970-01-01, was a Thursday, hence the `+ 3` shift for ISO weeks, which
begin on Monday). The claims under verification do not depend on the
label text itself, only on key equality and on the bucket structure.
-/

structure TPost where
  timestamp : ℤ
  sentiment : String

def dfltPost : TPost := ⟨0, "neutral"⟩

inductive PKey where
  | hourK (h : ℤ) : PKey
  | dayK (d : ℤ) : PKey
  | weekK (w : ℤ) : PKey
  | periodK (i : ℕ) : PKey
deriving DecidableEq

def periodKey (interval : String) (t : ℤ) : PKey :=
  if interval = "hour" then PKey.hourK (Int.fdiv t 3600)
  else if interval = "week" then PKey.weekK (Int.fdiv (Int.fdiv t 86400 + 3) 7)
  else PKey.dayK (Int.fdiv t 86400)

/-- Stable insertion into a chronologically sorted list (equal
timestamps keep arrival order, like Python `sorted`). -/
def insertPost (ps : List TPost) (p : TPost) : List TPost :=
  match ps with
  | [] => [p]
  | q :: qs => if q.timestamp ≤ p.timestamp then q :: insertPost qs p else p :: q :: qs

/-- `sorted(posts, key=timestamp)` (line 382). -/
def sortPosts (posts : List TPost) : List TPost := posts.foldl insertPost []

/-- Append into the group of key `k` (`defaultdict(list)` semantics,
first-seen key order). -/
def addToGroup (gs : List (PKey × List TPost)) (k : PKey) (p : TPost) :
    List (PKey × List TPost) :=
  match gs with
  | [] => [(k, [p])]
  | (k2, ps) :: rest =>
    if k2 = k then (k2, ps ++ [p]) :: rest else (k2, ps) :: addToGroup rest k p

/-- Lines 385-407: group the sorted posts by period key. -/
def timeGroups (interval : String) (posts : List TPost) : List (PKey × List TPost) :=
  posts.foldl (fun gs p => addToGroup gs (periodKey interval p.timestamp) p) []

/-- Python dict assignment (used for `artificial_groups`): overwrite in
place or append. -/
def dictInsert (gs : List (PKey × List TPost)) (k : PKey) (v : List TPost) :
    List (PKey × List TPost) :=
  match gs with
  | [] => [(k, v)]
  | (k2, v2) :: rest =>
    if k2 = k then (k2, v) :: rest else (k2, v2) :: dictInsert rest k v

def postsPerGroup (posts : List TPost) : ℕ := max 5 (posts.length / 4)

def numGroups (posts : List TPost) : ℕ := max 3 (posts.length / postsPerGroup posts)

def timespanDays (posts : List TPost) : ℤ :=
  (((sortPosts posts).getLastD dfltPost).timestamp
    - ((sortPosts posts).headD dfltPost).timestamp).fdiv 86400

def offsetDays (posts : List TPost) (i : ℕ) : ℤ :=
  if 1 < numGroups posts then (timespanDays posts * i).fdiv ((numGroups posts : ℤ) - 1) else 0

/-- Lines 427-443: assign contiguous index ranges of the sorted list to
`numGroups` labels, via a Python dict. -/
def artificialGroups (keyOf : ℕ → PKey) (sorted : List TPost) (k : ℕ) :
    List (PKey × List TPost) :=
  (List.range k).foldl (fun gs i =>
    dictInsert gs (keyOf i)
      ((sorted.drop ((i * sorted.length) / k)).take
        (((i + 1) * sorted.length) / k - (i * sorted.length) / k))) []

/-- Lines 409-447: the natural groups, or the artificial fallback when
fewer than 2 period keys result and there are at least 10 posts. -/
def groupsWithFallback (posts : List TPost) (interval : String) :
    List (PKey × List TPost) :=
  if (timeGroups interval (sortPosts posts)).length < 2 then
    if 10 ≤ posts.length then
      if 0 < timespanDays posts then
        artificialGroups
          (fun i => PKey.dayK (Int.fdiv
            (((sortPosts posts).headD dfltPost).timestamp + 86400 * offsetDays posts i) 86400))
          (sortPosts posts) (numGroups posts)
      else
        artificialGroups (fun i => PKey.periodK (i + 1)) (sortPosts posts) (numGroups posts)
    else timeGroups interval (sortPosts posts)
  else timeGroups interval (sortPosts posts)

/-- `sorted(time_groups.items())` (line 452): output buckets ordered by
key. `pkeyLt` stands in for the lexicographic string order of the
labels; no verified claim depends on the output order. -/
def pkeyTag : PKey → ℕ
  | .hourK _ => 0
  | .dayK _ => 1
  | .weekK _ => 2
  | .periodK _ => 3

def pkeyVal : PKey → ℤ
  | .hourK h => h
  | .dayK d => d
  | .weekK w => w
  | .periodK i => i

def pkeyLt (a b : PKey) : Prop :=
  pkeyTag a < pkeyTag b ∨ (pkeyTag a = pkeyTag b ∧ pkeyVal a < pkeyVal b)

instance (a b : PKey) : Decidable (pkeyLt a b) := by
  unfold pkeyLt
  infer_instance

def insertByKey (e : PKey × List TPost) : List (PKey × List TPost) → List (PKey × List TPost)
  | [] => [e]
  | g :: rest => if pkeyLt e.1 g.1 then e :: g :: rest else g :: insertByKey e rest

def sortByKey (gs : List (PKey × List TPost)) : List (PKey × List TPost) :=
  gs.foldr insertByKey []

/-- Lines 456-464: tally the sentiments of one period (posts with a
nonstandard sentiment count as neutral). -/
def tallySent (acc : ℕ × ℕ × ℕ) (p : TPost) : ℕ × ℕ × ℕ :=
  if p.sentiment = "positive" then (acc.1 + 1, acc.2.1, acc.2.2)
  else if p.sentiment = "negative" then (acc.1, acc.2.1, acc.2.2 + 1)
  else (acc.1, acc.2.1 + 1, acc.2.2)

def periodCounts (ps : List TPost) : ℕ × ℕ × ℕ := ps.foldl tallySent (0, 0, 0)

structure TimePeriod where
  period : PKey
  count : ℕ
  pos : ℤ
  neu : ℤ
  neg : ℤ

/-- Lines 466-484: one output bucket, percentages via the per-period
normalizer with `total_count = len(period_posts)`. -/
def mkTimePeriod (k : PKey) (ps : List TPost) : TimePeriod :=
  { period := k, count := ps.length,
    pos := (periodPercentages (periodCounts ps).1 (periodCounts ps).2.1
              (periodCounts ps).2.2 ps.length).1,
    neu := (periodPercentages (periodCounts ps).1 (periodCounts ps).2.1
              (periodCounts ps).2.2 ps.length).2.1,
    neg := (periodPercentages (periodCounts ps).1 (periodCounts ps).2.1
              (periodCounts ps).2.2 ps.length).2.2 }

/-- Embedding of `get_sentiment_over_time` (lines 364-487). -/
def get_sentiment_over_time (posts : List TPost) (interval : String) : List TimePeriod :=
  if posts.isEmpty then []
  else
    ((sortByKey (groupsWithFallback posts interval)).filter
        (fun g => !g.2.isEmpty)).map (fun g => mkTimePeriod g.1 g.2)

/-!
## Cross-check reconciler: `analyze_sentiment` (lines 530-569)
-/

def seriesTotal (series : List TimePeriod) : ℕ :=
  series.foldl (fun acc per => acc + per.count) 0

/-- The accumulated weighted percentages (lines 534-547), rounded. -/
def weightedRaw (series : List TimePeriod) (total : ℕ) : ℤ × ℤ × ℤ :=
  (pyRound (series.foldl
      (fun acc per => acc + (per.pos : ℚ) * ((per.count : ℚ) / (total : ℚ))) 0),
   pyRound (series.foldl
      (fun acc per => acc + (per.neu : ℚ) * ((per.count : ℚ) / (total : ℚ))) 0),
   pyRound (series.foldl
      (fun acc per => acc + (per.neg : ℚ) * ((per.count : ℚ) / (total : ℚ))) 0))

/-- Lines 549-554: renormalize to 100 via the first-maximum adjustment
(`max` over insertion order positive, neutral, negative). -/
def weightedNormalized (series : List TimePeriod) (total : ℕ) : ℤ × ℤ × ℤ :=
  if sum3 (weightedRaw series total) ≠ 100 then
    adjustLargestMax (weightedRaw series total).1 (weightedRaw series total).2.1
      (weightedRaw series total).2.2
  else weightedRaw series total

/-- Lines 556-561: some category differs by more than 10 points. -/
def significantDiff (w overall : ℤ × ℤ × ℤ) : Prop :=
  10 < |w.1 - overall.1| ∨ 10 < |w.2.1 - overall.2.1| ∨ 10 < |w.2.2 - overall.2.2|

instance (w overall : ℤ × ℤ × ℤ) : Decidable (significantDiff w overall) := by
  unfold significantDiff
  infer_instance

/-- Embedding of the cross-check tail of `analyze_sentiment`
(lines 530-574): the returned `overall` value. -/
def crossCheck (overall : ℤ × ℤ × ℤ) (series : List TimePeriod) : ℤ × ℤ × ℤ :=
  if series.isEmpty then overall
  else if 0 < seriesTotal series then
    if significantDiff (weightedNormalized series (seriesTotal series)) overall then
      weightedNormalized series (seriesTotal series)
    else overall
  else overall

/-- Modelled from the spec: the time-weighted overall percentage —
each bucket's percentages weighted by `bucket_count/total_count`, summed,
rounded, and renormalized to 100 by the largest-category adjustment
(fixed priority positive, neutral, negative). -/
def spec_weighted (series : List TimePeriod) : ℤ × ℤ × ℤ :=
  adjustLargestChain
    (pyRound ((series.map (fun per =>
      (per.pos : ℚ) * ((per.count : ℚ) / ((seriesTotal series : ℕ) : ℚ)))).sum))
    (pyRound ((series.map (fun per =>
      (per.neu : ℚ) * ((per.count : ℚ) / ((seriesTotal series : ℕ) : ℚ)))).sum))
    (pyRound ((series.map (fun per =>
      (per.neg : ℚ) * ((per.count : ℚ) / ((seriesTotal series : ℕ) : ℚ)))).sum))

/-!
## C5: the cross-check reconciler
-/

theorem foldl_add_eq_sum {α : Type} (f : α → ℚ) :
    ∀ (l : List α) (init : ℚ), l.foldl (fun acc x => acc + f x) init = init + (l.map f).sum := by
  intro l
  induction l with
  | nil => intro init; simp
  | cons a t ih =>
    intro init
    rw [List.foldl_cons, ih, List.map_cons, List.sum_cons]
    ring

theorem seriesTotal_pos (series : List TimePeriod) (hne : series ≠ [])
    (hcnt : ∀ per ∈ series, 0 < per.count) : 0 < seriesTotal series := by
  cases series with
  | nil => exact absurd rfl hne
  | cons a t =>
    unfold seriesTotal
    have key : ∀ (l : List TimePeriod) (init : ℕ), 0 < init →
        0 < l.foldl (fun acc per => acc + per.count) init := by
      intro l
      induction l with
      | nil => intro init h; exact h
      | cons b u ih =>
        intro init h
        rw [List.foldl_cons]
        exact ih _ (by omega)
    rw [List.foldl_cons]
    exact key t _ (by have := hcnt a (by simp); omega)

theorem weightedNormalized_eq_spec (series : List TimePeriod) :
    weightedNormalized series (seriesTotal series) = spec_weighted series := by
  unfold weightedNormalized weightedRaw spec_weighted
  rw [foldl_add_eq_sum, foldl_add_eq_sum, foldl_add_eq_sum]
  rw [zero_add, zero_add, zero_add]
  by_cases h100 : sum3
      (pyRound ((series.map (fun per =>
          (per.pos : ℚ) * ((per.count : ℚ) / ((seriesTotal series : ℕ) : ℚ)))).sum),
       pyRound ((series.map (fun per =>
          (per.neu : ℚ) * ((per.count : ℚ) / ((seriesTotal series : ℕ) : ℚ)))).sum),
       pyRound ((series.map (fun per =>
          (per.neg : ℚ) * ((per.count : ℚ) / ((seriesTotal series : ℕ) : ℚ)))).sum)) = 100
  · rw [if_neg (by simpa using h100), adjustLargestChain_of_sum_100 (by simpa [sum3] using h100)]
  · rw [if_pos h100, adjustLargestMax_eq_chain]

/-- **C5.** In the final cross-check (nonempty series of nonempty
buckets), if some category of the time-weighted overall differs from the
direct overall by more than 10 percentage points, the returned overall
is the time-weighted aggregate (`spec_weighted`, the rounded
count-weighted bucket percentages renormalized to 100); otherwise the
direct aggregate is returned unchanged. -/
theorem cross_check_behavior (overall : ℤ × ℤ × ℤ) (series : List TimePeriod)
    (hne : series ≠ [])
    (hcnt : ∀ per ∈ series, 0 < per.count) :
    (significantDiff (spec_weighted series) overall →
      crossCheck overall series = spec_weighted series) ∧
    (¬ significantDiff (spec_weighted series) overall →
      crossCheck overall series = overall) := by
  have hw := weightedNormalized_eq_spec series
  have htot : 0 < seriesTotal series := seriesTotal_pos series hne hcnt
  have hemp : series.isEmpty = false := by
    cases series with
    | nil => exact absurd rfl hne
    | cons a t => rfl
  unfold crossCheck
  rw [if_neg (by simp [hemp]), if_pos htot, hw]
  constructor
  · intro hsig
    rw [if_pos hsig]
  · intro hsig
    rw [if_neg hsig]

def c5series : List TimePeriod := [⟨PKey.periodK 1, 1, 0, 100, 0⟩]

/-- Witness for C5: one all-neutral bucket against a fully-positive
direct overall exceeds the 10-point threshold, so the time-weighted
value replaces it. -/
theorem cross_check_behavior_witness :
    crossCheck (100, 0, 0) c5series = (0, 100, 0) := by
  have hsw : spec_weighted c5series = (0, 100, 0) := by
    unfold spec_weighted c5series seriesTotal
    norm_num [pyRound, adjustLargestChain]
  have hcnt : ∀ per ∈ c5series, 0 < per.count := by
    intro per hper
    simp only [c5series, List.mem_singleton] at hper
    rw [hper]
    norm_num
  have h := (cross_check_behavior (100, 0, 0) c5series (by simp [c5series]) hcnt).1
  rw [← hsw]
  exact h (by rw [hsw]; decide)

/-!
## C6: the time bucketer on single-instant inputs

The claim fails for small inputs: the artificial-bucket fallback is
guarded by `len(posts_with_sentiment) >= 10` (line 414), so a non-empty
input of fewer than 10 posts that collapses into one period key stays a
single bucket. For at least 10 posts sharing one instant the fallback
runs with ordinal `Period i` labels and yields `max 3 _ ≥ 3` buckets.
-/

/-- **C6, counterexample.** Five posts sharing one instant produce
exactly one bucket — not at least three. -/
theorem time_bucket_counterexample :
    (get_sentiment_over_time
      [⟨0, "neutral"⟩, ⟨0, "neutral"⟩, ⟨0, "neutral"⟩, ⟨0, "neutral"⟩, ⟨0, "neutral"⟩]
      "day").length = 1 := by
  rfl

theorem insertPost_length (ps : List TPost) (p : TPost) :
    (insertPost ps p).length = ps.length + 1 := by
  induction ps with
  | nil => rfl
  | cons q qs ih =>
    simp only [insertPost]
    split
    · simp [ih]
    · simp

theorem sortPosts_length (posts : List TPost) : (sortPosts posts).length = posts.length := by
  unfold sortPosts
  have key : ∀ (l : List TPost) (acc : List TPost),
      (l.foldl insertPost acc).length = acc.length + l.length := by
    intro l
    induction l with
    | nil => intro acc; simp
    | cons a t ih =>
      intro acc
      rw [List.foldl_cons, ih, insertPost_length, List.length_cons]
      omega
  rw [key]
  simp

theorem insertPost_mem {q : TPost} {ps : List TPost} {p : TPost}
    (h : q ∈ insertPost ps p) : q = p ∨ q ∈ ps := by
  induction ps with
  | nil =>
    simp only [insertPost, List.mem_singleton] at h
    exact Or.inl h
  | cons r rs ih =>
    simp only [insertPost] at h
    split at h
    · rcases List.mem_cons.mp h with h2 | h2
      · exact Or.inr (by simp [h2])
      · rcases ih h2 with h3 | h3
        · exact Or.inl h3
        · exact Or.inr (List.mem_cons_of_mem _ h3)
    · rcases List.mem_cons.mp h with h2 | h2
      · exact Or.inl h2
      · exact Or.inr h2

theorem sortPosts_forall {P : TPost → Prop} (posts : List TPost)
    (h : ∀ p ∈ posts, P p) : ∀ p ∈ sortPosts posts, P p := by
  unfold sortPosts
  have key : ∀ (l : List TPost) (acc : List TPost),
      (∀ p ∈ l, P p) → (∀ p ∈ acc, P p) → ∀ p ∈ l.foldl insertPost acc, P p := by
    intro l
    induction l with
    | nil => intro acc _ hacc p hp; exact hacc p hp
    | cons a t ih =>
      intro acc hl hacc p hp
      rw [List.foldl_cons] at hp
      refine ih _ (fun q hq => hl q (by simp [hq])) ?_ p hp
      intro q hq
      rcases insertPost_mem hq with h2 | h2
      · rw [h2]
        exact hl a (by simp)
      · exact hacc q h2
  exact key posts [] h (fun q hq => absurd hq (List.not_mem_nil q))

theorem foldl_addToGroup_const (interval : String) (k : PKey) :
    ∀ (posts : List TPost) (ps0 : List TPost),
      (∀ p ∈ posts, periodKey interval p.timestamp = k) →
      posts.foldl (fun gs p => addToGroup gs (periodKey interval p.timestamp) p) [(k, ps0)]
        = [(k, ps0 ++ posts)] := by
  intro posts
  induction posts with
  | nil => intro ps0 _; simp
  | cons a t ih =>
    intro ps0 h
    rw [List.foldl_cons, h a (by simp)]
    rw [show addToGroup [(k, ps0)] k a = [(k, ps0 ++ [a])] from by simp [addToGroup]]
    rw [ih (ps0 ++ [a]) (fun p hp => h p (by simp [hp]))]
    simp

theorem timeGroups_const (interval : String) (k : PKey) (posts : List TPost)
    (hne : posts ≠ []) (h : ∀ p ∈ posts, periodKey interval p.timestamp = k) :
    timeGroups interval posts = [(k, posts)] := by
  cases posts with
  | nil => exact absurd rfl hne
  | cons a t =>
    unfold timeGroups
    rw [List.foldl_cons, h a (by simp)]
    rw [show addToGroup [] k a = [(k, [a])] from rfl]
    rw [foldl_addToGroup_const interval k t [a] (fun p hp => h p (by simp [hp]))]
    simp

theorem dictInsert_not_mem (gs : List (PKey × List TPost)) (k : PKey) (v : List TPost)
    (h : k ∉ gs.map Prod.fst) : dictInsert gs k v = gs ++ [(k, v)] := by
  induction gs with
  | nil => rfl
  | cons g rest ih =>
    obtain ⟨k2, v2⟩ := g
    simp only [List.map_cons, List.mem_cons] at h
    push_neg at h
    simp only [dictInsert]
    rw [if_neg (fun he => h.1 he.symm), ih h.2]
    rfl

theorem foldl_dictInsert_map (keyOf : ℕ → PKey) (f : ℕ → List TPost)
    (hinj : ∀ i j, keyOf i = keyOf j → i = j) :
    ∀ (k : ℕ), (List.range k).foldl (fun gs i => dictInsert gs (keyOf i) (f i)) []
      = (List.range k).map (fun i => (keyOf i, f i)) := by
  intro k
  induction k with
  | zero => rfl
  | succ m ih =>
    rw [List.range_succ, List.foldl_append, ih, List.map_append]
    simp only [List.foldl_cons, List.foldl_nil, List.map_cons, List.map_nil]
    rw [dictInsert_not_mem]
    rw [List.map_map]
    intro hmem
    obtain ⟨i, hi, he⟩ := List.mem_map.mp hmem
    have := hinj i m he
    rw [List.mem_range] at hi
    omega

theorem insertByKey_length (e : PKey × List TPost) :
    ∀ (gs : List (PKey × List TPost)), (insertByKey e gs).length = gs.length + 1 := by
  intro gs
  induction gs with
  | nil => rfl
  | cons g rest ih =>
    simp only [insertByKey]
    split
    · simp
    · simp [ih]

theorem sortByKey_length (gs : List (PKey × List TPost)) :
    (sortByKey gs).length = gs.length := by
  unfold sortByKey
  induction gs with
  | nil => rfl
  | cons g rest ih =>
    rw [List.foldr_cons, insertByKey_length, ih, List.length_cons]

theorem insertByKey_mem {x e : PKey × List TPost} :
    ∀ {gs : List (PKey × List TPost)}, x ∈ insertByKey e gs → x = e ∨ x ∈ gs := by
  intro gs
  induction gs with
  | nil =>
    intro h
    simp only [insertByKey, List.mem_singleton] at h
    exact Or.inl h
  | cons g rest ih =>
    intro h
    simp only [insertByKey] at h
    split at h
    · rcases List.mem_cons.mp h with h2 | h2
      · exact Or.inl h2
      · exact Or.inr h2
    · rcases List.mem_cons.mp h with h2 | h2
      · exact Or.inr (by simp [h2])
      · rcases ih h2 with h3 | h3
        · exact Or.inl h3
        · exact Or.inr (List.mem_cons_of_mem _ h3)

theorem sortByKey_mem {x : PKey × List TPost} :
    ∀ {gs : List (PKey × List TPost)}, x ∈ sortByKey gs → x ∈ gs := by
  intro gs
  induction gs with
  | nil => intro h; exact h
  | cons g rest ih =>
    intro h
    unfold sortByKey at h
    rw [List.foldr_cons] at h
    rcases insertByKey_mem h with h2 | h2
    · simp [h2]
    · exact List.mem_cons_of_mem _ (ih h2)

theorem mem_headD {l : List TPost} (h : l ≠ []) : l.headD dfltPost ∈ l := by
  cases l with
  | nil => exact absurd rfl h
  | cons a t => simp [List.headD]

theorem mem_getLastD : ∀ {l : List TPost} (d : TPost), l ≠ [] → l.getLastD d ∈ l := by
  intro l
  induction l with
  | nil => intro d h; exact absurd rfl h
  | cons a t ih =>
    intro d _
    rw [List.getLastD_cons]
    by_cases ht : t = []
    · subst ht
      simp [List.getLastD]
    · exact List.mem_cons_of_mem _ (ih a ht)

/-- The slice `sorted[i*n//k : (i+1)*n//k]` is nonempty when `i < k ≤ n`. -/
theorem slice_ne_nil (sorted : List TPost) (k i : ℕ)
    (hik : i < k) (hkn : k ≤ sorted.length) :
    (sorted.drop ((i * sorted.length) / k)).take
      (((i + 1) * sorted.length) / k - (i * sorted.length) / k) ≠ [] := by
  have hk : 0 < k := by omega
  have hn : 0 < sorted.length := by omega
  have hstart : (i * sorted.length) / k < sorted.length := by
    rw [Nat.div_lt_iff_lt_mul hk, Nat.mul_comm sorted.length k]
    exact (Nat.mul_lt_mul_right hn).mpr hik
  have hstep : (i * sorted.length) / k + 1 ≤ ((i + 1) * sorted.length) / k := by
    have h1 : (i * sorted.length + k) / k ≤ ((i + 1) * sorted.length) / k := by
      apply Nat.div_le_div_right
      have h3 : i * sorted.length + k ≤ i * sorted.length + sorted.length := by omega
      have h4 : (i + 1) * sorted.length = i * sorted.length + sorted.length := by ring
      omega
    rw [Nat.add_div_right _ hk] at h1
    exact h1
  apply List.length_pos.mp
  rw [List.length_take, List.length_drop]
  omega

/-- **C6, amended.** For every input of at least 10 posts all sharing
one timestamp instant, the bucketer falls back to artificial ordinal
buckets and yields at least 3 buckets; (per the counterexample, inputs
of fewer than 10 posts keep their single bucket). -/
theorem same_instant_artificial_buckets (posts : List TPost) (interval : String) (t : ℤ)
    (hn : 10 ≤ posts.length)
    (ht : ∀ p ∈ posts, p.timestamp = t) :
    3 ≤ (get_sentiment_over_time posts interval).length := by
  have hne : posts ≠ [] := by
    intro h
    rw [h] at hn
    simp at hn
  have hsne : sortPosts posts ≠ [] := by
    intro h
    have := sortPosts_length posts
    rw [h] at this
    simp at this
    omega
  have hst : ∀ p ∈ sortPosts posts, p.timestamp = t := sortPosts_forall posts ht
  have hgroups : timeGroups interval (sortPosts posts)
      = [(periodKey interval t, sortPosts posts)] := by
    apply timeGroups_const interval _ _ hsne
    intro p hp
    rw [hst p hp]
  have hts : timespanDays posts = 0 := by
    unfold timespanDays
    rw [hst _ (mem_getLastD _ hsne), hst _ (mem_headD hsne)]
    simp
  have hk3 : 3 ≤ numGroups posts := le_max_left _ _
  have hkn : numGroups posts ≤ posts.length := by
    apply Nat.max_le.mpr
    exact ⟨by omega, Nat.div_le_self _ _⟩
  have hfall : groupsWithFallback posts interval
      = artificialGroups (fun i => PKey.periodK (i + 1)) (sortPosts posts) (numGroups posts) := by
    unfold groupsWithFallback
    rw [hgroups]
    rw [if_pos (by simp), if_pos hn, if_neg (by rw [hts]; omega)]
  have hart : artificialGroups (fun i => PKey.periodK (i + 1)) (sortPosts posts)
      (numGroups posts) = (List.range (numGroups posts)).map (fun i => (PKey.periodK (i + 1),
        ((sortPosts posts).drop ((i * (sortPosts posts).length) / numGroups posts)).take
          (((i + 1) * (sortPosts posts).length) / numGroups posts
            - (i * (sortPosts posts).length) / numGroups posts))) := by
    apply foldl_dictInsert_map
    intro i j he
    have := PKey.periodK.injEq (i + 1) (j + 1)
    rw [this] at he
    omega
  unfold get_sentiment_over_time
  rw [if_neg (by simp [hne])]
  rw [List.length_map]
  have hall : ∀ g ∈ sortByKey (groupsWithFallback posts interval), (!g.2.isEmpty) = true := by
    intro g hg
    have hg2 := sortByKey_mem hg
    rw [hfall, hart] at hg2
    obtain ⟨i, hi, he⟩ := List.mem_map.mp hg2
    rw [List.mem_range] at hi
    have hnn : g.2 ≠ [] := by
      rw [← he]
      exact slice_ne_nil (sortPosts posts) (numGroups posts) i hi
        (by rw [sortPosts_length]; exact hkn)
    simp only [Bool.not_eq_true']
    cases hh : g.2 with
    | nil => exact absurd hh hnn
    | cons x xs => rfl
  rw [List.filter_eq_self.mpr hall]
  rw [sortByKey_length, hfall, hart, List.length_map, List.length_range]
  exact hk3

/-- Witness for the amended C6: ten posts at one instant give at least
three buckets. -/
theorem same_instant_artificial_buckets_witness :
    3 ≤ (get_sentiment_over_time (List.replicate 10 ⟨0, "neutral"⟩) "day").length := by
  apply same_instant_artificial_buckets _ "day" 0
  · simp
  · intro p hp
    rw [List.eq_of_mem_replicate hp]

/-!
## Timestamp normalizer: `process_timestamps` (lines 291-362)

Posts here carry a sentiment, an optional instant (`Option ℚ`, seconds;
a missing value models an absent `timestamp` key) and the
`artificial_timestamp` flag (absent key ≡ `false`). String-valued
timestamps and their format-parsing fallback (lines 342-362) are outside
the modelled fragment; no claim under verification depends on them.
A sentiment outside the three categories raises `KeyError` at line 320
(`sentiment_groups[...]`), modelled as an `Except.error`.
-/

structure SPost where
  sentiment : String
  timestamp : Option ℚ
  artificial : Bool

/-- Lines 326-329: one post from each sentiment group per round, in the
order positive, neutral, negative. -/
def interleave3 (xs ys zs : List SPost) : List SPost :=
  (List.range (max xs.length (max ys.length zs.length))).flatMap
    (fun i => [xs[i]?, ys[i]?, zs[i]?].filterMap id)

/-- Lines 332-336: spread the interleaved sequence linearly over the
7-day window ending at `now`; `L` is the length of the whole sequence
and `i` the index of the current post. -/
def spreadFrom (now : ℚ) (L : ℕ) : ℕ → List SPost → List SPost
  | _, [] => []
  | i, p :: ps =>
    { p with
      timestamp := some ((now - 7 * 86400) + (7 * 86400) * ((i : ℚ) / ((max 1 (L - 1) : ℕ) : ℚ))),
      artificial := true } :: spreadFrom now L (i + 1) ps

def spreadTimestamps (now : ℚ) (ps : List SPost) : List SPost :=
  spreadFrom now ps.length 0 ps

/-- Embedding of `process_timestamps` (lines 291-362). -/
def process_timestamps (now : ℚ) (posts : List SPost) : Except String (List SPost) :=
  if ((posts.filter (fun p => p.timestamp.isSome)).length : ℚ)
      < (posts.length : ℚ) * (7 / 10) then
    if posts.all (fun p =>
        p.sentiment == "positive" || p.sentiment == "neutral" || p.sentiment == "negative") then
      .ok (spreadTimestamps now (interleave3
        (posts.filter (fun p => p.sentiment == "positive"))
        (posts.filter (fun p => p.sentiment == "neutral"))
        (posts.filter (fun p => p.sentiment == "negative"))))
    else .error "KeyError"
  else
    .ok (posts.map (fun p => if p.timestamp.isNone then { p with timestamp := some now } else p))

/-!
## C8: synthesis of timestamps
-/

theorem bind_slots_length (xs ys zs : List SPost) :
    ∀ m, ((List.range m).flatMap (fun i => [xs[i]?, ys[i]?, zs[i]?].filterMap id)).length
      = min m xs.length + min m ys.length + min m zs.length := by
  intro m
  induction m with
  | zero => simp
  | succ j ih =>
    rw [List.range_succ, List.flatMap_append, List.length_append, ih]
    simp only [List.flatMap_cons, List.flatMap_nil, List.append_nil]
    have hlen : ∀ (l : List SPost),
        ((l[j]?).toList).length = if j < l.length then 1 else 0 := by
      intro l
      by_cases h : j < l.length
      · rw [List.getElem?_eq_getElem h]
        simp [h]
      · rw [List.getElem?_eq_none (by omega)]
        simp [h]
    rw [show ([xs[j]?, ys[j]?, zs[j]?].filterMap id)
          = (xs[j]?).toList ++ ((ys[j]?).toList ++ (zs[j]?).toList) from by
        cases xs[j]? <;> cases ys[j]? <;> cases zs[j]? <;> rfl]
    rw [List.length_append, List.length_append, hlen xs, hlen ys, hlen zs]
    by_cases h1 : j < xs.length <;> by_cases h2 : j < ys.length <;>
      by_cases h3 : j < zs.length <;>
      simp only [h1, h2, h3, if_true, if_false, ite_true, ite_false] <;> omega

theorem interleave3_length (xs ys zs : List SPost) :
    (interleave3 xs ys zs).length = xs.length + ys.length + zs.length := by
  unfold interleave3
  rw [bind_slots_length]
  omega

theorem spreadFrom_length (now : ℚ) (L : ℕ) :
    ∀ (ps : List SPost) (i : ℕ), (spreadFrom now L i ps).length = ps.length := by
  intro ps
  induction ps with
  | nil => intro i; rfl
  | cons p rest ih =>
    intro i
    simp only [spreadFrom, List.length_cons]
    rw [ih]

theorem spreadFrom_props (now : ℚ) (L : ℕ) :
    ∀ (ps : List SPost) (i : ℕ), i + ps.length ≤ max 1 (L - 1) + 1 →
      ∀ q ∈ spreadFrom now L i ps, q.artificial = true ∧
        ∃ ts, q.timestamp = some ts ∧ now - 7 * 86400 ≤ ts ∧ ts ≤ now := by
  intro ps
  induction ps with
  | nil => intro i _ q hq; exact absurd hq (List.not_mem_nil q)
  | cons p rest ih =>
    intro i hb q hq
    simp only [List.length_cons] at hb
    simp only [spreadFrom] at hq
    rcases List.mem_cons.mp hq with h | h
    · rw [h]
      refine ⟨rfl, (now - 7 * 86400) + (7 * 86400) * ((i : ℚ) / ((max 1 (L - 1) : ℕ) : ℚ)),
        rfl, ?_, ?_⟩
      · have hden : (0 : ℚ) < ((max 1 (L - 1) : ℕ) : ℚ) := by
          have : 1 ≤ max 1 (L - 1) := le_max_left _ _
          exact_mod_cast Nat.lt_of_lt_of_le Nat.zero_lt_one this
        have hpos : (0 : ℚ) ≤ (i : ℚ) / ((max 1 (L - 1) : ℕ) : ℚ) := by positivity
        nlinarith
      · have hden : (0 : ℚ) < ((max 1 (L - 1) : ℕ) : ℚ) := by
          have : 1 ≤ max 1 (L - 1) := le_max_left _ _
          exact_mod_cast Nat.lt_of_lt_of_le Nat.zero_lt_one this
        have hile : (i : ℚ) ≤ ((max 1 (L - 1) : ℕ) : ℚ) := by
          have : i ≤ max 1 (L - 1) := by omega
          exact_mod_cast this
        have hle1 : (i : ℚ) / ((max 1 (L - 1) : ℕ) : ℚ) ≤ 1 :=
          (div_le_one hden).mpr hile
        nlinarith
    · exact ih (i + 1) (by omega) q h

theorem filter_three_partition : ∀ (posts : List SPost),
    (∀ p ∈ posts, p.sentiment = "positive" ∨ p.sentiment = "neutral"
      ∨ p.sentiment = "negative") →
    (posts.filter (fun p => p.sentiment == "positive")).length
      + (posts.filter (fun p => p.sentiment == "neutral")).length
      + (posts.filter (fun p => p.sentiment == "negative")).length = posts.length := by
  intro posts
  induction posts with
  | nil => intro _; rfl
  | cons p rest ih =>
    intro hsent
    have hrest := ih (fun q hq => hsent q (List.mem_cons_of_mem _ hq))
    rcases hsent p (by simp) with h | h | h <;>
      simp [List.filter_cons, h, List.length_cons] <;> omega

/-- **C8.** When fewer than 70% of the posts carry a timestamp (and all
sentiments are among the three categories, as the pipeline guarantees),
the normalizer groups the posts by sentiment, interleaves the groups in
round-robin order positive → neutral → negative, spreads the sequence
linearly over the 7-day window ending at `now` — every assigned
timestamp lies between `now - 7 days` and `now` — marks every post with
the synthetic-timestamp flag, and keeps exactly one output post per
input post. -/
theorem timestamp_synthesis (now : ℚ) (posts : List SPost)
    (hsent : ∀ p ∈ posts, p.sentiment = "positive" ∨ p.sentiment = "neutral"
      ∨ p.sentiment = "negative")
    (hfew : ((posts.filter (fun p => p.timestamp.isSome)).length : ℚ)
      < (posts.length : ℚ) * (7 / 10)) :
    process_timestamps now posts = .ok (spreadTimestamps now (interleave3
        (posts.filter (fun p => p.sentiment == "positive"))
        (posts.filter (fun p => p.sentiment == "neutral"))
        (posts.filter (fun p => p.sentiment == "negative")))) ∧
    ∀ res, process_timestamps now posts = .ok res →
      res.length = posts.length ∧
      ∀ q ∈ res, q.artificial = true ∧
        ∃ ts, q.timestamp = some ts ∧ now - 7 * 86400 ≤ ts ∧ ts ≤ now := by
  have hall : posts.all (fun p =>
      p.sentiment == "positive" || p.sentiment == "neutral"
        || p.sentiment == "negative") = true := by
    rw [List.all_eq_true]
    intro p hp
    rcases hsent p hp with h | h | h <;> simp [h]
  have hok : process_timestamps now posts = .ok (spreadTimestamps now (interleave3
      (posts.filter (fun p => p.sentiment == "positive"))
      (posts.filter (fun p => p.sentiment == "neutral"))
      (posts.filter (fun p => p.sentiment == "negative")))) := by
    unfold process_timestamps
    rw [if_pos hfew, if_pos hall]
  refine ⟨hok, ?_⟩
  intro res hres
  rw [hok] at hres
  injection hres with hres2
  have hilen : (interleave3
      (posts.filter (fun p => p.sentiment == "positive"))
      (posts.filter (fun p => p.sentiment == "neutral"))
      (posts.filter (fun p => p.sentiment == "negative"))).length = posts.length := by
    rw [interleave3_length]
    exact filter_three_partition posts hsent
  constructor
  · rw [← hres2]
    unfold spreadTimestamps
    rw [spreadFrom_length, hilen]
  · intro q hq
    rw [← hres2] at hq
    unfold spreadTimestamps at hq
    refine spreadFrom_props _ _ _ 0 ?_ q hq
    omega

/-- Witness for C8 at a concrete two-post input with no timestamps. -/
theorem timestamp_synthesis_witness :
    process_timestamps 0 [⟨"positive", none, false⟩, ⟨"neutral", none, false⟩]
      = .ok (spreadTimestamps 0 (interleave3
        ([⟨"positive", none, false⟩, ⟨"neutral", none, false⟩].filter
          (fun p => p.sentiment == "positive"))
        ([⟨"positive", none, false⟩, ⟨"neutral", none, false⟩].filter
          (fun p => p.sentiment == "neutral"))
        ([⟨"positive", none, false⟩, ⟨"neutral", none, false⟩].filter
          (fun p => p.sentiment == "negative")))) := by
  refine (timestamp_synthesis 0 _ ?_ ?_).1
  · intro p hp
    rcases List.mem_cons.mp hp with h | h
    · rw [h]
      exact Or.inl rfl
    · rcases List.mem_cons.mp h with h2 | h2
      · rw [h2]
        exact Or.inr (Or.inl rfl)
      · exact absurd h2 (List.not_mem_nil p)
  · simp [List.filter]

end SentimentService
